import Mathlib

/-!
Verification of the scanning core of the `hounddog` static-analysis scanner.

The Rust sources are shallowly embedded: enums become inductive types,
structs become structures, byte strings become `List Char` (exact for the
ASCII subset; Rust slices UTF-8 byte ranges, the model slices char ranges),
hash maps become association lists, and fallible operations (`unwrap`)
return `Option`.  The derived Rust `Ord` on field-free enums orders the
variants in declaration order; the model exposes this through `rank`
functions.
-/

set_option maxRecDepth 10000

namespace HoundDog

/-- `enums.rs`: `Sensitivity` with derived `Ord` meaning
`Critical < Medium < Low` (declaration order). -/
inductive Sensitivity where
  | Critical
  | Medium
  | Low
deriving DecidableEq, Repr

/-- Rust's derived `Ord` on `Sensitivity`: the discriminant in declaration
order. -/
def Sensitivity.rank : Sensitivity → Nat
  | .Critical => 0
  | .Medium => 1
  | .Low => 2

/-- `enums.rs`: `Severity`, same variant order as `Sensitivity`. -/
inductive Severity where
  | Critical
  | Medium
  | Low
deriving DecidableEq, Repr

def Severity.rank : Severity → Nat
  | .Critical => 0
  | .Medium => 1
  | .Low => 2

/-- `enums.rs`: provenance of a rule. -/
inductive Source where
  | AI
  | User
  | HoundDog
deriving DecidableEq, Repr

/-- `enums.rs`: supported language tags. -/
inductive Language where
  | CSharp
  | GraphQL
  | Java
  | Kotlin
  | Python
  | Ruby
  | SQL
  | Typescript
deriving DecidableEq, Repr

/-- `enums.rs`: Git hosting providers. -/
inductive GitProvider where
  | Bitbucket
  | GitHub
  | GitLab
deriving DecidableEq, Repr

/-- `enums.rs`: kinds of lexical scopes. -/
inductive ScopeType where
  | Global
  | Anonymous
  | Class
  | Function
deriving DecidableEq, Repr

/-- `enums.rs`: `VisitChildren`, the visitor's answer. -/
inductive VisitChildren where
  | Yes
  | No
deriving DecidableEq, Repr

/-- strum's derived `Display`: the variant identifier. -/
def Sensitivity.toText : Sensitivity → String
  | .Critical => "Critical"
  | .Medium => "Medium"
  | .Low => "Low"

/-- strum's derived `FromStr` (`EnumString`): exact variant identifier. -/
def Sensitivity.fromText : String → Option Sensitivity
  | "Critical" => some .Critical
  | "Medium" => some .Medium
  | "Low" => some .Low
  | _ => none

def Severity.toText : Severity → String
  | .Critical => "Critical"
  | .Medium => "Medium"
  | .Low => "Low"

def Severity.fromText : String → Option Severity
  | "Critical" => some .Critical
  | "Medium" => some .Medium
  | "Low" => some .Low
  | _ => none

def Source.toText : Source → String
  | .AI => "AI"
  | .User => "User"
  | .HoundDog => "HoundDog"

def Source.fromText : String → Option Source
  | "AI" => some .AI
  | "User" => some .User
  | "HoundDog" => some .HoundDog
  | _ => none

def Language.toText : Language → String
  | .CSharp => "CSharp"
  | .GraphQL => "GraphQL"
  | .Java => "Java"
  | .Kotlin => "Kotlin"
  | .Python => "Python"
  | .Ruby => "Ruby"
  | .SQL => "SQL"
  | .Typescript => "Typescript"

def Language.fromText : String → Option Language
  | "CSharp" => some .CSharp
  | "GraphQL" => some .GraphQL
  | "Java" => some .Java
  | "Kotlin" => some .Kotlin
  | "Python" => some .Python
  | "Ruby" => some .Ruby
  | "SQL" => some .SQL
  | "Typescript" => some .Typescript
  | _ => none

/-- `structs.rs`: a data-element rule.  Compiled regexes are modelled as
boolean matchers on strings. -/
structure DataElement where
  id : String
  name : String
  description : String
  include_patterns : List (String → Bool)
  exclude_patterns : List (String → Bool)
  is_enabled : Bool
  sensitivity : Sensitivity
  source : Source
  tags : List String

/-- `structs.rs` `DataElement::is_match`: some include pattern matches and
no exclude pattern matches. -/
def DataElement.is_match (e : DataElement) (s : String) : Bool :=
  (e.include_patterns.any fun p => p s) && !(e.exclude_patterns.any fun p => p s)

/-- `structs.rs`: one entry of `DataSink::match_rules` (the regex is
optional). -/
structure DataSinkMatchRule where
  regex : Option (String → Bool)

/-- `structs.rs`: a data-sink rule. -/
structure DataSink where
  id : String
  description : String
  language : Language
  name : String
  cwe : List String
  owasp : List String
  match_rules : List DataSinkMatchRule
  remediation : String

/-- `structs.rs` `DataSink::is_match`: any present regex matches. -/
def DataSink.is_match (k : DataSink) (s : String) : Bool :=
  k.match_rules.any fun m =>
    match m.regex with
    | some r => r s
    | none => false

/-! ### `utils/hash.rs` — the identity hasher

`calculate_md5_hash` feeds the UTF-8 bytes of its argument to MD5 (RFC
1321, reproduced here over `Nat` with explicit reductions mod `2 ^ 32`),
renders each digest byte as two lowercase hex digits (`{:02x}`), and
uppercases the result. -/

def M32 : Nat := 4294967296

def rotl32 (x s : Nat) : Nat :=
  ((x <<< s) % M32) ||| (x >>> (32 - s))

def not32 (x : Nat) : Nat := 4294967295 ^^^ x

/-- The 64 MD5 round constants. -/
def md5K : List Nat :=
  [0xd76aa478, 0xe8c7b756, 0x242070db, 0xc1bdceee,
   0xf57c0faf, 0x4787c62a, 0xa8304613, 0xfd469501,
   0x698098d8, 0x8b44f7af, 0xffff5bb1, 0x895cd7be,
   0x6b901122, 0xfd987193, 0xa679438e, 0x49b40821,
   0xf61e2562, 0xc040b340, 0x265e5a51, 0xe9b6c7aa,
   0xd62f105d, 0x02441453, 0xd8a1e681, 0xe7d3fbc8,
   0x21e1cde6, 0xc33707d6, 0xf4d50d87, 0x455a14ed,
   0xa9e3e905, 0xfcefa3f8, 0x676f02d9, 0x8d2a4c8a,
   0xfffa3942, 0x8771f681, 0x6d9d6122, 0xfde5380c,
   0xa4beea44, 0x4bdecfa9, 0xf6bb4b60, 0xbebfbc70,
   0x289b7ec6, 0xeaa127fa, 0xd4ef3085, 0x04881d05,
   0xd9d4d039, 0xe6db99e5, 0x1fa27cf8, 0xc4ac5665,
   0xf4292244, 0x432aff97, 0xab9423a7, 0xfc93a039,
   0x655b59c3, 0x8f0ccc92, 0xffeff47d, 0x85845dd1,
   0x6fa87e4f, 0xfe2ce6e0, 0xa3014314, 0x4e0811a1,
   0xf7537e82, 0xbd3af235, 0x2ad7d2bb, 0xeb86d391]

/-- The 64 MD5 per-round left-rotation amounts. -/
def md5S : List Nat :=
  [7, 12, 17, 22, 7, 12, 17, 22, 7, 12, 17, 22, 7, 12, 17, 22,
   5, 9, 14, 20, 5, 9, 14, 20, 5, 9, 14, 20, 5, 9, 14, 20,
   4, 11, 16, 23, 4, 11, 16, 23, 4, 11, 16, 23, 4, 11, 16, 23,
   6, 10, 15, 21, 6, 10, 15, 21, 6, 10, 15, 21, 6, 10, 15, 21]

/-- One MD5 round applied to the state `(a, b, c, d)`. -/
def md5Step (m : List Nat) (st : Nat × Nat × Nat × Nat) (i : Nat) :
    Nat × Nat × Nat × Nat :=
  let (a, b, c, d) := st
  let f :=
    if i < 16 then (b &&& c) ||| (not32 b &&& d)
    else if i < 32 then (d &&& b) ||| (not32 d &&& c)
    else if i < 48 then b ^^^ c ^^^ d
    else c ^^^ (b ||| not32 d)
  let g :=
    if i < 16 then i
    else if i < 32 then (5 * i + 1) % 16
    else if i < 48 then (3 * i + 5) % 16
    else (7 * i) % 16
  let tmp := (a + f + md5K.getD i 0 + m.getD g 0) % M32
  let nb := (b + rotl32 tmp (md5S.getD i 0)) % M32
  (d, nb, b, c)

/-- The sixteen little-endian 32-bit words of a 64-byte chunk. -/
def chunkWords (chunk : List Nat) : List Nat :=
  (List.range 16).map fun i =>
    chunk.getD (4 * i) 0 + (chunk.getD (4 * i + 1) 0) * 256 +
      (chunk.getD (4 * i + 2) 0) * 65536 + (chunk.getD (4 * i + 3) 0) * 16777216

/-- Process one 64-byte chunk. -/
def md5Chunk (st : Nat × Nat × Nat × Nat) (chunk : List Nat) :
    Nat × Nat × Nat × Nat :=
  let m := chunkWords chunk
  let (a, b, c, d) := (List.range 64).foldl (md5Step m) st
  let (a0, b0, c0, d0) := st
  ((a0 + a) % M32, (b0 + b) % M32, (c0 + c) % M32, (d0 + d) % M32)

/-- Cut a byte list into runs of 64 (fuel keeps the recursion structural). -/
def chunksAux : Nat → List Nat → List (List Nat)
  | 0, _ => []
  | _, [] => []
  | fuel + 1, l => l.take 64 :: chunksAux fuel (l.drop 64)

def chunks64 (l : List Nat) : List (List Nat) :=
  chunksAux l.length l

/-- MD5 padding: `0x80`, zeros to 56 mod 64, then the bit length as eight
little-endian bytes. -/
def md5Pad (msg : List Nat) : List Nat :=
  let bitLen := (msg.length * 8) % (2 ^ 64)
  let z := (120 - ((msg.length + 1) % 64)) % 64
  msg ++ [0x80] ++ List.replicate z 0 ++
    ((List.range 8).map fun i => (bitLen >>> (8 * i)) % 256)

def word_le_bytes (w : Nat) : List Nat :=
  [w % 256, w / 256 % 256, w / 65536 % 256, w / 16777216 % 256]

/-- The 16-byte MD5 digest of a byte list. -/
def md5Bytes (msg : List Nat) : List Nat :=
  let st :=
    (chunks64 (md5Pad msg)).foldl md5Chunk
      (0x67452301, 0xefcdab89, 0x98badcfe, 0x10325476)
  word_le_bytes st.1 ++ word_le_bytes st.2.1 ++ word_le_bytes st.2.2.1 ++
    word_le_bytes st.2.2.2

/-- UTF-8 encoding of one scalar value (Rust `str::as_bytes` works on the
UTF-8 encoding of the string). -/
def utf8_encode_char (c : Char) : List Nat :=
  let n := c.toNat
  if n < 0x80 then [n]
  else if n < 0x800 then
    [0xC0 ||| (n >>> 6), 0x80 ||| (n &&& 0x3F)]
  else if n < 0x10000 then
    [0xE0 ||| (n >>> 12), 0x80 ||| ((n >>> 6) &&& 0x3F), 0x80 ||| (n &&& 0x3F)]
  else
    [0xF0 ||| (n >>> 18), 0x80 ||| ((n >>> 12) &&& 0x3F),
     0x80 ||| ((n >>> 6) &&& 0x3F), 0x80 ||| (n &&& 0x3F)]

def as_bytes (s : String) : List Nat :=
  s.data.flatMap utf8_encode_char

def hex_char_lower (n : Nat) : Char :=
  ("0123456789abcdef".data).getD n '0'

/-- `format!("{:02x}", b)` for a byte: exactly two lowercase hex digits. -/
def byte_to_hex (b : Nat) : List Char :=
  [hex_char_lower (b / 16), hex_char_lower (b % 16)]

/-- `utils/hash.rs` `calculate_md5_hash`: hex digest of the MD5 of the
UTF-8 bytes, uppercased (`str::to_uppercase` mapped per character). -/
def calculate_md5_hash (data : String) : String :=
  let hash_bytes := md5Bytes (as_bytes data)
  let hash_str := (hash_bytes.map byte_to_hex).flatten
  String.mk (hash_str.map Char.toUpper)

/-! ### Text helpers

Rust strings are modelled at character granularity: `source` is a
`List Char`, and byte offsets/indices of the source are char offsets
(exact on the ASCII subset the scanner's own tests exercise). -/

/-- Split a character list on a separator, keeping empty pieces (the
underlying splitter of Rust `str::split` and `str::lines`). Never returns
the empty list. -/
def split_char (sep : Char) : List Char → List (List Char)
  | [] => [[]]
  | c :: cs =>
    let rest := split_char sep cs
    if c = sep then [] :: rest
    else
      match rest with
      | [] => [[c]]
      | h :: t => (c :: h) :: t

/-- Strip one trailing carriage return (Rust `str::lines` treats `\r\n` as
a line ending). -/
def strip_cr (l : List Char) : List Char :=
  if l.getLast? = some '\x0d' then l.dropLast else l

/-- Rust `str::lines`: split on `\n`, drop a final empty piece, strip one
trailing `\r` from each line. -/
def rust_lines (s : List Char) : List (List Char) :=
  let pieces := split_char '\x0a' s
  let pieces := if pieces.getLast? = some [] then pieces.dropLast else pieces
  pieces.map strip_cr

/-- Rust `str::trim` (ASCII whitespace model). -/
def rust_trim (l : List Char) : List Char :=
  ((l.dropWhile Char.isWhitespace).reverse.dropWhile Char.isWhitespace).reverse

/-- Rust `str::trim` on `String`. -/
def str_trim (s : String) : String := String.mk (rust_trim s.data)

/-- `line.chars().take_while(|c| c.is_whitespace()).count()`. -/
def leading_ws (l : List Char) : Nat := (l.takeWhile Char.isWhitespace).length

/-- Rust `Vec::join(",")`. -/
def join_comma : List String → String
  | [] => ""
  | [s] => s
  | s :: rest => s ++ "," ++ join_comma rest

/-- `scanner/database.rs` `row_to_vec`: split a stored column on commas. -/
def row_to_vec (s : String) : List String :=
  (split_char ',' s.data).map String.mk

/-- Association-list read, standing in for `HashMap::get`. -/
def assoc_get {α : Type} (m : List (String × α)) (k : String) : Option α :=
  (m.find? fun p => p.1 = k).map fun p => p.2

/-- Association-list write, standing in for `HashMap::insert`. -/
def assoc_insert {α : Type} : List (String × α) → String → α → List (String × α)
  | [], k, v => [(k, v)]
  | (k0, v0) :: rest, k, v =>
    if k0 = k then (k, v) :: rest else (k0, v0) :: assoc_insert rest k v

/-! ### `structs.rs` — scan state and findings -/

/-- The position/extent data of a tree-sitter node consumed by the finding
constructors (`start_position`, `end_position`, `start_byte`, `end_byte`). -/
structure Node where
  start_byte : Nat
  end_byte : Nat
  start_row : Nat
  start_column : Nat
  end_row : Nat
  end_column : Nat
deriving DecidableEq, Repr

/-- The fields of `structs.rs` `Repository` the scanning core reads. -/
structure Repository where
  base_url : String
  name : String
  branch : String
  commit : String
  git_provider : Option GitProvider

/-- The fields of `structs.rs` `ScanConfig` the scanning core reads.
`data_elements` is a `HashMap<String, DataElement>` in the source; the
model keeps its `values()` iteration order as a list.  The skip sets are
`HashSet<String>`, modelled as lists queried by membership. -/
structure ScanConfig where
  repository : Repository
  data_elements : List DataElement
  skip_occurrences : List String
  skip_vulnerabilities : List String

/-- `structs.rs` `CodeScope`. -/
structure CodeScope where
  scope_type : ScopeType
  scope_name : String
  aliases : List (String × String)

def CodeScope.new (scope_type : ScopeType) (scope_name : String) : CodeScope :=
  { scope_type, scope_name, aliases := [] }

/-- `structs.rs` `FileScanContext`.  The `database` reference is modelled
by passing the `ScanDatabase` value to the `put_*` operations explicitly.
The scope stack keeps the Rust `Vec` orientation: the top of the stack is
the last element. -/
structure FileScanContext where
  config : ScanConfig
  absolute_file_path : String
  relative_file_path : String
  display_file_path : String
  source : List Char
  language : Language
  scopes : List CodeScope
  data_sinks_cache : List (String × DataSink)
  data_elements_cache : List (String × DataElement)
  data_element_aliases : List (String × List String)

/-- `get_node_text`: the slice `source[start_byte..end_byte]`. -/
def FileScanContext.get_node_text (ctx : FileScanContext) (node : Node) : String :=
  String.mk ((ctx.source.drop node.start_byte).take (node.end_byte - node.start_byte))

/-- `get_code_line`: expand the node's extent to whole lines, then trim
whitespace, commas and semicolons from both ends. -/
def FileScanContext.get_code_line (ctx : FileScanContext) (node : Node) : String :=
  let start0 := node.start_byte
  let end0 := node.end_byte
  let start :=
    match ((ctx.source.take start0).reverse.findIdx? fun ch => ch = '\x0a') with
    | some k => start0 - k
    | none => 0
  let stop :=
    match ((ctx.source.drop end0).findIdx? fun ch => ch = '\x0a') with
    | some k => end0 + k
    | none => ctx.source.length
  let line := (ctx.source.drop start).take (stop - start)
  let keep : Char → Bool := fun c => c = ',' || c = ';' || c.isWhitespace
  String.mk (((line.dropWhile keep).reverse.dropWhile keep).reverse)

/-- The minimum leading-whitespace count across the non-blank lines
(`.min().unwrap_or(0)`). -/
def min_indent (code_lines : List (List Char)) : Nat :=
  (((code_lines.filter fun line => !(rust_trim line).isEmpty).map leading_ws).min?).getD 0

/-- `get_code_block`: pad the node text on the left of its first line with
`start_position().column` spaces, split into lines, compute the minimum
leading-whitespace count over the non-blank lines, slice that many leading
characters off every line and rejoin with `\n`.  The slice
`&line[min_indent_length..]` panics when the index exceeds the line's
length — possible only on a blank line shorter than the minimum indent,
since every non-blank line has at least `min_indent_length` leading
whitespace characters — and the model returns `none` on that panic. -/
def FileScanContext.get_code_block (ctx : FileScanContext) (node : Node) :
    Option String :=
  let text := ctx.get_node_text node
  let code_block := List.replicate node.start_column ' ' ++ text.data
  let code_lines := rust_lines code_block
  let min_indent_length := min_indent code_lines
  if code_lines.all fun line => decide (min_indent_length ≤ line.length) then
    some (String.mk (List.intercalate ['\x0a']
      (code_lines.map fun line => line.drop min_indent_length)))
  else
    none

/-- `structs.rs` `FileScanContext::enter_global_scope`. -/
def FileScanContext.enter_global_scope (ctx : FileScanContext) : FileScanContext :=
  { ctx with scopes := ctx.scopes ++ [CodeScope.new .Global "global"] }

/-- `structs.rs` `FileScanContext::exit_current_scope`: `Vec::pop`, a
no-op on an empty stack. -/
def FileScanContext.exit_current_scope (ctx : FileScanContext) : FileScanContext :=
  { ctx with scopes := ctx.scopes.dropLast }

/-- `structs.rs` `FileScanContext::put_alias`: insert into the aliases of
the innermost scope when one exists (`last_mut`), otherwise do nothing. -/
def FileScanContext.put_alias (ctx : FileScanContext) (name alias_name : String) :
    FileScanContext :=
  match ctx.scopes.getLast? with
  | none => ctx
  | some scope =>
    { ctx with
      scopes := ctx.scopes.dropLast ++
        [{ scope with aliases := assoc_insert scope.aliases name alias_name }] }

/-- `structs.rs` `FileScanContext::find_data_element`: consult the
per-file cache, then the data-element aliases (cache lookups only), then
scan the catalog for the first element matching the dot-to-underscore
normalised name, caching a hit.  The source drifts between an option and
a sequence result type; the visitors consume it as an option taking the
first hit, which is the contract modelled here. -/
def FileScanContext.find_data_element (ctx : FileScanContext) (name : String) :
    FileScanContext × Option DataElement :=
  match assoc_get ctx.data_elements_cache name with
  | some e => (ctx, some e)
  | none =>
    match assoc_get ctx.data_element_aliases name with
    | some alias_names =>
      (ctx, (alias_names.filterMap fun n => assoc_get ctx.data_elements_cache n).head?)
    | none =>
      let normalized_name := String.mk (name.data.map fun c => if c = '.' then '_' else c)
      match ctx.config.data_elements.find? fun e => e.is_match normalized_name with
      | some e =>
        ({ ctx with data_elements_cache := assoc_insert ctx.data_elements_cache name e },
          some e)
      | none => (ctx, none)

/-- `utils/git.rs` `get_url_link` (the provider-specific line-anchor URL
formats). -/
def get_url_link (git_provider : Option GitProvider)
    (remote_url commit relative_file_path : String) (line_start line_end : Nat) :
    String :=
  match git_provider with
  | some .GitHub =>
    remote_url ++ "/blob/" ++ commit ++ "/" ++ relative_file_path ++ "#L" ++
      toString line_start ++ "-L" ++ toString line_end
  | some .GitLab =>
    remote_url ++ "/-/blob/" ++ commit ++ "/" ++ relative_file_path ++ "#L" ++
      toString line_start ++ "-" ++ toString line_end
  | some .Bitbucket =>
    remote_url ++ "/src/" ++ commit ++ "/" ++ relative_file_path ++ "#lines-" ++
      toString line_start ++ ":" ++ toString line_end
  | none => remote_url

/-- `structs.rs` `DataElementOccurrence`. -/
structure DataElementOccurrence where
  data_element_id : String
  data_element_name : String
  hash : String
  sensitivity : Sensitivity
  language : Language
  code_segment : String
  absolute_file_path : String
  relative_file_path : String
  line_start : Nat
  line_end : Nat
  column_start : Nat
  column_end : Nat
  url_link : String
  source : Source
  tags : List String
deriving DecidableEq, Repr

/-- `structs.rs` `DataElementOccurrence::from_node`. -/
def DataElementOccurrence.from_node (ctx : FileScanContext) (node : Node)
    (data_element : DataElement) : DataElementOccurrence :=
  let line_start := node.start_row + 1
  let line_end := node.end_row + 1
  let column_start := node.start_column + 1
  let column_end := node.end_column + 1
  { data_element_id := data_element.id
    data_element_name := data_element.name
    sensitivity := data_element.sensitivity
    hash := calculate_md5_hash
      (ctx.config.repository.name ++ "|" ++ ctx.config.repository.branch ++ "|" ++
        data_element.id ++ "|" ++ ctx.relative_file_path ++ "|" ++ ctx.get_node_text node)
    language := ctx.language
    code_segment := ctx.get_code_line node
    absolute_file_path := ctx.absolute_file_path
    relative_file_path := ctx.relative_file_path
    line_start := line_start
    line_end := line_end
    column_start := column_start
    column_end := column_end
    url_link := get_url_link ctx.config.repository.git_provider
      ctx.config.repository.base_url ctx.config.repository.commit
      ctx.display_file_path line_start line_end
    source := data_element.source
    tags := data_element.tags }

/-- `structs.rs` `Vulnerability`. -/
structure Vulnerability where
  data_sink_id : String
  data_element_ids : List String
  data_element_names : List String
  hash : String
  description : String
  severity : Severity
  language : Language
  code_segment : String
  absolute_file_path : String
  relative_file_path : String
  line_start : Nat
  line_end : Nat
  column_start : Nat
  column_end : Nat
  url_link : String
  cwe : List String
  owasp : List String
deriving DecidableEq, Repr

/-- Rust `Iterator::min` over sensitivities, under the derived order
`Critical < Medium < Low` (first of equals kept). -/
def min_sensitivity (l : List Sensitivity) : Option Sensitivity :=
  l.foldl
    (fun acc s =>
      match acc with
      | none => some s
      | some m => some (if s.rank < m.rank then s else m))
    none

/-- The `match` in `Vulnerability::from_node` mapping the minimum
sensitivity to the severity. -/
def sensitivity_to_severity : Sensitivity → Severity
  | .Critical => .Critical
  | .Medium => .Medium
  | .Low => .Low

/-- `structs.rs` `Vulnerability::from_node`.  The source unwraps the
minimum sensitivity (a panic on an empty element list) and then calls
`get_code_block` for the `code_segment` field (a panic when a blank line
of the padded text is shorter than the minimum indent); the model returns
`none` on either panic. -/
def Vulnerability.from_node (ctx : FileScanContext) (node : Node)
    (data_sink : DataSink) (data_elements : List DataElement) : Option Vulnerability :=
  let line_start := node.start_row + 1
  let line_end := node.end_row + 1
  let column_start := node.start_column + 1
  let column_end := node.end_column + 1
  match min_sensitivity (data_elements.map fun e => e.sensitivity) with
  | none => none
  | some m =>
    match ctx.get_code_block node with
    | none => none
    | some seg =>
    some
      { data_sink_id := data_sink.id
        data_element_ids := data_elements.map fun e => e.id
        data_element_names := data_elements.map fun e => e.name
        hash := calculate_md5_hash
          (ctx.config.repository.name ++ "|" ++ ctx.config.repository.branch ++ "|" ++
            data_sink.id ++ "|" ++ ctx.relative_file_path ++ "|" ++
            str_trim (ctx.get_node_text node))
        description := data_sink.description
        severity := sensitivity_to_severity m
        language := ctx.language
        code_segment := seg
        absolute_file_path := ctx.absolute_file_path
        relative_file_path := ctx.relative_file_path
        line_start := line_start
        line_end := line_end
        column_start := column_start
        column_end := column_end
        url_link := get_url_link ctx.config.repository.git_provider
          ctx.config.repository.base_url ctx.config.repository.commit
          ctx.display_file_path line_start line_end
        cwe := data_sink.cwe
        owasp := data_sink.owasp }

/-! ### `scanner/database.rs` — the finding store

Every column of the SQLite tables becomes a row field.  The INSERT binds
every value as text; TEXT columns keep the string, and the INT columns
keep the integer the text converts to under SQLite's integer affinity, so
the model stores `Nat` there directly.  Enum columns store the strum
`Display` rendering and are parsed back with the strum `FromStr`
(`row_to_enum`); string-sequence columns store the comma-join and are
split back by `row_to_vec`. -/

/-- One row of the `data_element_occurrences` table. -/
structure OccurrenceRow where
  data_element_id : String
  data_element_name : String
  hash : String
  sensitivity : String
  language : String
  code_segment : String
  absolute_file_path : String
  relative_file_path : String
  line_start : Nat
  line_end : Nat
  column_start : Nat
  column_end : Nat
  url_link : String
  source : String
  tags : String
deriving DecidableEq, Repr

/-- One row of the `vulnerabilities` table. -/
structure VulnerabilityRow where
  data_sink_id : String
  data_element_ids : String
  data_element_names : String
  hash : String
  description : String
  severity : String
  language : String
  code_segment : String
  absolute_file_path : String
  relative_file_path : String
  line_start : Nat
  line_end : Nat
  column_start : Nat
  column_end : Nat
  url_link : String
  cwe : String
  owasp : String
deriving DecidableEq, Repr

/-- The two tables of the transient scan database. -/
structure ScanDatabase where
  data_element_occurrences : List OccurrenceRow
  vulnerabilities : List VulnerabilityRow
deriving DecidableEq, Repr

/-- The values bound by the `put_data_element_occurrence` INSERT, in
column order. -/
def occurrence_to_row (occurrence : DataElementOccurrence) : OccurrenceRow :=
  { data_element_id := occurrence.data_element_id
    data_element_name := occurrence.data_element_name
    hash := occurrence.hash
    sensitivity := occurrence.sensitivity.toText
    language := occurrence.language.toText
    code_segment := occurrence.code_segment
    absolute_file_path := occurrence.absolute_file_path
    relative_file_path := occurrence.relative_file_path
    line_start := occurrence.line_start
    line_end := occurrence.line_end
    column_start := occurrence.column_start
    column_end := occurrence.column_end
    url_link := occurrence.url_link
    source := occurrence.source.toText
    tags := join_comma occurrence.tags }

/-- The values bound by the `put_vulnerability` INSERT, in column order. -/
def vulnerability_to_row (vulnerability : Vulnerability) : VulnerabilityRow :=
  { data_sink_id := vulnerability.data_sink_id
    data_element_ids := join_comma vulnerability.data_element_ids
    data_element_names := join_comma vulnerability.data_element_names
    hash := vulnerability.hash
    description := vulnerability.description
    severity := vulnerability.severity.toText
    language := vulnerability.language.toText
    code_segment := vulnerability.code_segment
    absolute_file_path := vulnerability.absolute_file_path
    relative_file_path := vulnerability.relative_file_path
    line_start := vulnerability.line_start
    line_end := vulnerability.line_end
    column_start := vulnerability.column_start
    column_end := vulnerability.column_end
    url_link := vulnerability.url_link
    cwe := join_comma vulnerability.cwe
    owasp := join_comma vulnerability.owasp }

/-- `ScanDatabase::put_data_element_occurrence`: the INSERT statement. -/
def ScanDatabase.put_data_element_occurrence (db : ScanDatabase)
    (occurrence : DataElementOccurrence) : ScanDatabase :=
  { db with
    data_element_occurrences :=
      db.data_element_occurrences ++ [occurrence_to_row occurrence] }

/-- `ScanDatabase::put_vulnerability`: the INSERT statement. -/
def ScanDatabase.put_vulnerability (db : ScanDatabase)
    (vulnerability : Vulnerability) : ScanDatabase :=
  { db with
    vulnerabilities := db.vulnerabilities ++ [vulnerability_to_row vulnerability] }

/-- The row mapper of `get_data_element_occurrences`; `row_to_enum`
unwraps a parse failure, modelled by `Option`. -/
def row_to_occurrence (r : OccurrenceRow) : Option DataElementOccurrence :=
  match Sensitivity.fromText r.sensitivity, Language.fromText r.language,
      Source.fromText r.source with
  | some sens, some lang, some src =>
    some
      { data_element_id := r.data_element_id
        data_element_name := r.data_element_name
        hash := r.hash
        sensitivity := sens
        language := lang
        code_segment := r.code_segment
        absolute_file_path := r.absolute_file_path
        relative_file_path := r.relative_file_path
        line_start := r.line_start
        line_end := r.line_end
        column_start := r.column_start
        column_end := r.column_end
        url_link := r.url_link
        source := src
        tags := row_to_vec r.tags }
  | _, _, _ => none

/-- The row mapper of `get_vulnerabilities`. -/
def row_to_vulnerability (r : VulnerabilityRow) : Option Vulnerability :=
  match Severity.fromText r.severity, Language.fromText r.language with
  | some sev, some lang =>
    some
      { data_sink_id := r.data_sink_id
        data_element_ids := row_to_vec r.data_element_ids
        data_element_names := row_to_vec r.data_element_names
        hash := r.hash
        description := r.description
        severity := sev
        language := lang
        code_segment := r.code_segment
        absolute_file_path := r.absolute_file_path
        relative_file_path := r.relative_file_path
        line_start := r.line_start
        line_end := r.line_end
        column_start := r.column_start
        column_end := r.column_end
        url_link := r.url_link
        cwe := row_to_vec r.cwe
        owasp := row_to_vec r.owasp }
  | _, _ => none

/-- `ScanDatabase::get_data_element_occurrences` (each row's unwrap
modelled by `Option`). -/
def ScanDatabase.get_data_element_occurrences (db : ScanDatabase) :
    Option (List DataElementOccurrence) :=
  db.data_element_occurrences.mapM row_to_occurrence

/-- `ScanDatabase::get_vulnerabilities`. -/
def ScanDatabase.get_vulnerabilities (db : ScanDatabase) :
    Option (List Vulnerability) :=
  db.vulnerabilities.mapM row_to_vulnerability

/-- `structs.rs` `FileScanContext::put_occurrence`: write the occurrence
unless its hash is in the CLI skip set. -/
def FileScanContext.put_occurrence (ctx : FileScanContext) (db : ScanDatabase)
    (occurrence : DataElementOccurrence) : ScanDatabase :=
  if !(ctx.config.skip_occurrences.contains occurrence.hash) then
    db.put_data_element_occurrence occurrence
  else db

/-- `structs.rs` `FileScanContext::put_vulnerability`. -/
def FileScanContext.put_vulnerability (ctx : FileScanContext) (db : ScanDatabase)
    (vulnerability : Vulnerability) : ScanDatabase :=
  if !(ctx.config.skip_vulnerabilities.contains vulnerability.hash) then
    db.put_vulnerability vulnerability
  else db

/-! ### `scanner/languages/base.rs` — the tree walker

The parsed syntax tree is a rose tree; the tree-sitter cursor is a zipper.
A node is identified by its path: the list of child indices from the
root.  The walker loop of `BaseScanner::scan_file` is embedded step by
step with a fuel counter (the Rust loop has no fuel; the equivalence
theorem shows the chosen fuel always suffices), and each call to the
visitor's `visit_node`/`leave_node` is recorded as a ghost event carrying
the path of the node it is called on. -/

/-- A concrete syntax tree. -/
inductive RTree (α : Type) where
  | node : α → List (RTree α) → RTree α

/-- The child subtrees of a node. -/
def RTree.children {α : Type} : RTree α → List (RTree α)
  | .node _ cs => cs

/-- A stateful visitor (`visit_node` and `leave_node` of `BaseScanner`,
with the mutated `FileScanContext` abstracted into a state `σ`). -/
structure Visitor (σ α : Type) where
  visit : σ → RTree α → σ × VisitChildren
  leave : σ → RTree α → σ

/-- One zipper frame: the parent's data and the siblings to the left
(reversed) and right of the focus. -/
structure Crumb (α : Type) where
  parent_label : α
  left_rev : List (RTree α)
  right : List (RTree α)

/-- The tree-sitter `TreeCursor`, as a zipper. -/
structure Cursor (α : Type) where
  crumbs : List (Crumb α)
  focus : RTree α

def Cursor.goto_first_child {α : Type} (c : Cursor α) : Option (Cursor α) :=
  match c.focus with
  | .node l (t :: ts) => some ⟨⟨l, [], ts⟩ :: c.crumbs, t⟩
  | .node _ [] => none

def Cursor.goto_next_sibling {α : Type} (c : Cursor α) : Option (Cursor α) :=
  match c.crumbs with
  | ⟨l, lrev, r :: rs⟩ :: cs => some ⟨⟨l, c.focus :: lrev, rs⟩ :: cs, r⟩
  | _ => none

def Cursor.goto_parent {α : Type} (c : Cursor α) : Option (Cursor α) :=
  match c.crumbs with
  | ⟨l, lrev, r⟩ :: cs => some ⟨cs, .node l (lrev.reverse ++ c.focus :: r)⟩
  | [] => none

/-- The path (child indices from the root) of the focused node. -/
def Cursor.path {α : Type} (c : Cursor α) : List Nat :=
  (c.crumbs.map fun cr => cr.left_rev.length).reverse

/-- A ghost record of one visitor call made by the walker: `visit`
carries the answer (`true` for `VisitChildren::Yes`). -/
inductive WalkEvent where
  | visit (path : List Nat) (descend : Bool)
  | leave (path : List Nat)
deriving DecidableEq, Repr

def WalkEvent.path : WalkEvent → List Nat
  | .visit p _ => p
  | .leave p => p

/-- The loop body of `BaseScanner::scan_file`, one iteration per unit of
fuel.  The branch structure mirrors the Rust `loop` exactly: on an
unvisited node call `visit_node` and descend unless pruned or childless;
otherwise move to the next sibling (calling `leave_node` on the node the
iteration captured) or call `leave_node` and move to the parent,
returning when there is none. -/
def scan_loop {σ α : Type} (v : Visitor σ α) :
    Nat → Cursor α → Bool → σ → List WalkEvent → Option (σ × List WalkEvent)
  | 0, _, _, _, _ => none
  | fuel + 1, cursor, visited_all, s, acc =>
    if !visited_all then
      let res := v.visit s cursor.focus
      let acc1 := acc ++ [.visit cursor.path (res.2 = VisitChildren.Yes)]
      if res.2 = VisitChildren.No then scan_loop v fuel cursor true res.1 acc1
      else
        match cursor.goto_first_child with
        | some c1 => scan_loop v fuel c1 false res.1 acc1
        | none => scan_loop v fuel cursor true res.1 acc1
    else
      match cursor.goto_next_sibling with
      | some c1 =>
        scan_loop v fuel c1 false (v.leave s cursor.focus) (acc ++ [.leave cursor.path])
      | none =>
        let s1 := v.leave s cursor.focus
        let acc1 := acc ++ [.leave cursor.path]
        match cursor.goto_parent with
        | some c1 => scan_loop v fuel c1 true s1 acc1
        | none => some (s1, acc1)

mutual

/-- Loop iterations needed to take a subtree from unvisited to fully
visited (`2 * size - 1`). -/
def walk_cost {α : Type} : RTree α → Nat
  | .node _ cs => 1 + cost_list cs

/-- Iterations needed for a run of siblings (each subtree plus the move
off it). -/
def cost_list {α : Type} : List (RTree α) → Nat
  | [] => 0
  | c :: cs => (walk_cost c + 1) + cost_list cs

end

/-- `BaseScanner::scan_file` on a parsed tree: run the walker loop from
the root with sufficient fuel. -/
def scan_file {σ α : Type} (v : Visitor σ α) (t : RTree α) (s0 : σ) :
    Option (σ × List WalkEvent) :=
  scan_loop v (walk_cost t + 1) ⟨[], t⟩ false s0 []

mutual

/-- Recursive reference traversal: visit the node, walk the children if
not pruned, then leave the node. -/
def walk_tree {σ α : Type} (v : Visitor σ α) (s : σ) (p : List Nat) :
    RTree α → σ × List WalkEvent
  | .node l cs =>
    let res := v.visit s (.node l cs)
    if res.2 = VisitChildren.Yes then
      let rec2 := walk_children v res.1 p 0 cs
      (v.leave rec2.1 (.node l cs), .visit p true :: rec2.2 ++ [.leave p])
    else
      (v.leave res.1 (.node l cs), [.visit p false, .leave p])

/-- Reference traversal of a run of siblings starting at child index `i`. -/
def walk_children {σ α : Type} (v : Visitor σ α) (s : σ) (p : List Nat) (i : Nat) :
    List (RTree α) → σ × List WalkEvent
  | [] => (s, [])
  | c :: cs =>
    let r1 := walk_tree v s (p ++ [i]) c
    let r2 := walk_children v r1.1 p (i + 1) cs
    (r2.1, r1.2 ++ r2.2)

end

/-- `walk_tree` without the trailing `leave`: the state and events
produced by the loop in taking the focus from unvisited to fully
visited. -/
def walk_interior {σ α : Type} (v : Visitor σ α) (s : σ) (p : List Nat) :
    RTree α → σ × List WalkEvent
  | .node l cs =>
    let res := v.visit s (.node l cs)
    if res.2 = VisitChildren.Yes then
      let rec2 := walk_children v res.1 p 0 cs
      (rec2.1, .visit p true :: rec2.2)
    else
      (res.1, [.visit p false])

/-- Boolean path-prefix test: `is_under p q` holds when `q` is `p` or a
descendant of `p`. -/
def is_under : List Nat → List Nat → Bool
  | [], _ => true
  | _ :: _, [] => false
  | a :: as', b :: bs => a = b && is_under as' bs

/-- The argument scan of the `call` arm of `PythonScanner::visit_node`:
for each identifier argument, look the text up with `find_data_element`
(threading the cache updates) and collect the hits in order. -/
def collect_elements (ctx : FileScanContext) (args : List String) :
    FileScanContext × List DataElement :=
  args.foldl
    (fun acc t =>
      let r := acc.1.find_data_element t
      match r.2 with
      | some e => (r.1, acc.2 ++ [e])
      | none => (r.1, acc.2))
    (ctx, [])

/-! ### Concrete fixtures used by the witness theorems -/

def el_ssn : DataElement :=
  { id := "ssn", name := "SSN", description := "social security number",
    include_patterns := [fun s => s == "ssn"], exclude_patterns := [],
    is_enabled := true, sensitivity := .Critical, source := .HoundDog,
    tags := ["pii"] }

def el_nickname : DataElement :=
  { id := "nickname", name := "Nickname", description := "nickname",
    include_patterns := [fun s => s == "nickname"], exclude_patterns := [],
    is_enabled := true, sensitivity := .Low, source := .HoundDog,
    tags := ["pii"] }

def sink_log : DataSink :=
  { id := "python_log_sink", description := "log sink", language := .Python,
    name := "print", cwe := ["CWE-200"], owasp := ["A09:2021"],
    match_rules := [⟨some fun s => s == "print"⟩], remediation := "" }

def fixture_repository : Repository :=
  { base_url := "https://github.com/org/repo", name := "org/repo",
    branch := "main", commit := "deadbeef", git_provider := some .GitHub }

def fixture_config : ScanConfig :=
  { repository := fixture_repository, data_elements := [el_ssn, el_nickname],
    skip_occurrences := [], skip_vulnerabilities := [] }

def fixture_ctx : FileScanContext :=
  { config := fixture_config, absolute_file_path := "/repo/b.py",
    relative_file_path := "b.py", display_file_path := "b.py",
    source := "print(ssn, nickname)".data, language := .Python, scopes := [],
    data_sinks_cache := [], data_elements_cache := [], data_element_aliases := [] }

/-- The whole `print(ssn, nickname)` call. -/
def fixture_call_node : Node :=
  { start_byte := 0, end_byte := 20, start_row := 0, start_column := 0,
    end_row := 0, end_column := 20 }

def empty_vulnerability : Vulnerability :=
  { data_sink_id := "", data_element_ids := [], data_element_names := [],
    hash := "", description := "", severity := .Low, language := .Python,
    code_segment := "", absolute_file_path := "", relative_file_path := "",
    line_start := 0, line_end := 0, column_start := 0, column_end := 0,
    url_link := "", cwe := [], owasp := [] }

/-- The vulnerability built from the fixture call with the single element
`el_ssn`. -/
def fixture_vuln : Vulnerability :=
  (Vulnerability.from_node fixture_ctx fixture_call_node sink_log [el_ssn]).getD
    empty_vulnerability

def fixture_skip_config : ScanConfig :=
  { fixture_config with skip_occurrences := ["H1"], skip_vulnerabilities := ["H2"] }

def fixture_skip_ctx : FileScanContext :=
  { fixture_ctx with config := fixture_skip_config }

def db0 : ScanDatabase := { data_element_occurrences := [], vulnerabilities := [] }

def occ_h1 : DataElementOccurrence :=
  { data_element_id := "ssn", data_element_name := "SSN", hash := "H1",
    sensitivity := .Critical, language := .Python, code_segment := "print(ssn)",
    absolute_file_path := "/repo/b.py", relative_file_path := "b.py",
    line_start := 1, line_end := 1, column_start := 7, column_end := 10,
    url_link := "u", source := .HoundDog, tags := ["pii"] }

def vuln_h2 : Vulnerability :=
  { data_sink_id := "python_log_sink", data_element_ids := ["ssn"],
    data_element_names := ["SSN"], hash := "H2", description := "log sink",
    severity := .Critical, language := .Python, code_segment := "print(ssn)",
    absolute_file_path := "/repo/b.py", relative_file_path := "b.py",
    line_start := 1, line_end := 1, column_start := 1, column_end := 11,
    url_link := "u", cwe := ["CWE-200"], owasp := ["A09:2021"] }

/-- An occurrence with an empty tag list (the C8 counterexample input). -/
def occ_no_tags : DataElementOccurrence :=
  { occ_h1 with hash := "H3", tags := [] }

/-- Node text `"  a\n "`: its last line is blank and shorter than the
minimum indent, so the dedent slice panics (first C7 counterexample
input). -/
def c7_ctx : FileScanContext :=
  { fixture_ctx with source := ("  a" ++ "\x0a" ++ " ").data }

def c7_node : Node :=
  { start_byte := 0, end_byte := 5, start_row := 0, start_column := 0,
    end_row := 1, end_column := 1 }

/-- Node text `"  a\n  "`: the blank last line is exactly as long as the
minimum indent, so the slice succeeds but the line dedents to the empty
string, which the final `lines()` drops (second C7 counterexample
input). -/
def c7_ctx4 : FileScanContext :=
  { fixture_ctx with source := ("  a" ++ "\x0a" ++ "  ").data }

def c7_node4 : Node :=
  { start_byte := 0, end_byte := 6, start_row := 0, start_column := 0,
    end_row := 1, end_column := 2 }

/-- Node text `"x\ny"` starting at column 4: the padded first line keeps
its padding after dedent (third C7 counterexample input). -/
def c7_ctx2 : FileScanContext :=
  { fixture_ctx with source := ("x" ++ "\x0a" ++ "y").data }

def c7_node2 : Node :=
  { start_byte := 0, end_byte := 3, start_row := 0, start_column := 4,
    end_row := 1, end_column := 1 }

/-- Node text `"ab\ncd"` at column 0: a well-behaved input for the C7
witness. -/
def c7_ctx3 : FileScanContext :=
  { fixture_ctx with source := ("ab" ++ "\x0a" ++ "cd").data }

def c7_node3 : Node :=
  { start_byte := 0, end_byte := 5, start_row := 0, start_column := 0,
    end_row := 1, end_column := 2 }

/-- A three-node tree for the C5 witness. -/
def walk_fixture_tree : RTree Nat := .node 0 [.node 1 [], .node 2 []]

/-- A counting visitor that prunes the subtree labelled 1. -/
def walk_fixture_visitor : Visitor Nat Nat :=
  { visit := fun s t =>
      (s + 1,
        match t with
        | .node 1 _ => VisitChildren.No
        | _ => VisitChildren.Yes)
    leave := fun s _ => s }

/-- The state and trace the walker produces on the fixture tree. -/
def walk_fixture_result : Nat × List WalkEvent :=
  (scan_file walk_fixture_visitor walk_fixture_tree 0).getD (0, [])

/-! ## Theorems -/

/-- The `Iterator::min` fold from a `some` seed returns a lower bound
that is the seed or a list member. -/
theorem min_sensitivity_fold_spec (l : List Sensitivity) :
    ∀ a : Sensitivity,
      ∃ m,
        l.foldl
          (fun acc s =>
            match acc with
            | none => some s
            | some m0 => some (if s.rank < m0.rank then s else m0))
          (some a) = some m ∧
        (m = a ∨ m ∈ l) ∧ m.rank ≤ a.rank ∧ ∀ s ∈ l, m.rank ≤ s.rank := by
  induction l with
  | nil => exact fun a => ⟨a, rfl, Or.inl rfl, Nat.le_refl _, by simp⟩
  | cons x xs ih =>
    intro a
    obtain ⟨m, hm, hmem, hle, hall⟩ := ih (if x.rank < a.rank then x else a)
    refine ⟨m, by simpa using hm, ?_, ?_, ?_⟩
    · rcases hmem with h | h
      · by_cases hx : x.rank < a.rank
        · simp [hx] at h; exact Or.inr (by simp [h])
        · simp [hx] at h; exact Or.inl h
      · exact Or.inr (List.mem_cons_of_mem _ h)
    · by_cases hx : x.rank < a.rank
      · simp [hx] at hle; omega
      · simpa [hx] using hle
    · intro s hs
      rcases List.mem_cons.mp hs with h | h
      · rw [h]
        by_cases hx : x.rank < a.rank
        · simpa [hx] using hle
        · have h2 := hle
          simp [hx] at h2
          omega
      · exact hall s h

/-- `min_sensitivity` returns a member that is a rank lower bound. -/
theorem min_sensitivity_spec (l : List Sensitivity) (m : Sensitivity)
    (h : min_sensitivity l = some m) : m ∈ l ∧ ∀ s ∈ l, m.rank ≤ s.rank := by
  cases l with
  | nil => simp [min_sensitivity] at h
  | cons x xs =>
    obtain ⟨m0, hm0, hmem, hle, hall⟩ := min_sensitivity_fold_spec xs x
    unfold min_sensitivity at h
    simp only [List.foldl_cons] at h
    rw [hm0] at h
    injection h with h
    subst h
    constructor
    · rcases hmem with h | h
      · exact h ▸ List.mem_cons_self _ _
      · exact List.mem_cons_of_mem _ h
    · intro s hs
      rcases List.mem_cons.mp hs with h | h
      · subst h; exact hle
      · exact hall s h

/-- C1: every vulnerability the constructor builds from a non-empty
element list carries the severity label of the minimum sensitivity among
the participating elements under `Critical < Medium < Low`, with
`Critical ↦ Critical`, `Medium ↦ Medium`, `Low ↦ Low`. -/
theorem c1_vulnerability_severity_min (ctx : FileScanContext) (node : Node)
    (sink : DataSink) (es : List DataElement) (v : Vulnerability)
    (h : Vulnerability.from_node ctx node sink es = some v) :
    ∃ m : Sensitivity, m ∈ es.map (fun e => e.sensitivity) ∧
      (∀ s ∈ es.map (fun e => e.sensitivity), m.rank ≤ s.rank) ∧
      v.severity = sensitivity_to_severity m := by
  unfold Vulnerability.from_node at h
  cases hm : min_sensitivity (es.map fun e => e.sensitivity) with
  | none => rw [hm] at h; simp at h
  | some m =>
    rw [hm] at h
    cases hg : ctx.get_code_block node with
    | none => rw [hg] at h; simp at h
    | some seg =>
      rw [hg] at h
      injection h with h
      subst h
      obtain ⟨hmem, hall⟩ := min_sensitivity_spec _ _ hm
      exact ⟨m, hmem, hall, rfl⟩

/-- Witness for C1 at the fixture call with the single element `el_ssn`. -/
theorem c1_witness :
    ∃ m : Sensitivity, m ∈ [el_ssn].map (fun e => e.sensitivity) ∧
      (∀ s ∈ [el_ssn].map (fun e => e.sensitivity), m.rank ≤ s.rank) ∧
      fixture_vuln.severity = sensitivity_to_severity m :=
  c1_vulnerability_severity_min fixture_ctx fixture_call_node sink_log [el_ssn]
    fixture_vuln rfl

/-- C2 counterexample: with catalog `[ssn (Critical), nickname (Low)]`
and both elements as identifier arguments of a matching sink call, the
constructed vulnerability has severity `Critical`, not `Low`: `min` under
the derived order `Critical < Medium < Low` selects `Critical`. -/
theorem c2_counterexample :
    ((Vulnerability.from_node fixture_ctx fixture_call_node sink_log
        (collect_elements fixture_ctx ["ssn", "nickname"]).2).map
      Vulnerability.severity) = some Severity.Critical ∧
    ((Vulnerability.from_node fixture_ctx fixture_call_node sink_log
        (collect_elements fixture_ctx ["ssn", "nickname"]).2).map
      Vulnerability.severity) ≠ some Severity.Low := by
  constructor
  · decide
  · decide

/-- C2 amended: in the `ssn (Critical)` + `nickname (Low)` scenario the
recorded vulnerability has severity `Critical` (the minimum of the two
sensitivities under the ordering `Critical < Medium < Low`, i.e. the
most-sensitive participant). -/
theorem c2_amended :
    ((Vulnerability.from_node fixture_ctx fixture_call_node sink_log
        (collect_elements fixture_ctx ["ssn", "nickname"]).2).map
      Vulnerability.severity) = some Severity.Critical := by
  decide

/-- C3: a data element matches a string exactly when some include
pattern matches it and no exclude pattern matches it. -/
theorem c3_element_match (e : DataElement) (s : String) :
    e.is_match s = true ↔
      ((∃ p, p ∈ e.include_patterns ∧ p s = true) ∧
        ∀ p, p ∈ e.exclude_patterns → p s = false) := by
  simp [DataElement.is_match, List.any_eq_true]

/-- Witness for C3: `el_ssn` on the string `"ssn"`. -/
theorem c3_witness :
    el_ssn.is_match "ssn" = true ↔
      ((∃ p, p ∈ el_ssn.include_patterns ∧ p "ssn" = true) ∧
        ∀ p, p ∈ el_ssn.exclude_patterns → p "ssn" = false) :=
  c3_element_match el_ssn "ssn"

/-- C9: the id and name sequences of a constructed vulnerability have
equal length and are aligned: position `i` of both comes from the `i`-th
participating element. -/
theorem c9_ids_names_aligned (ctx : FileScanContext) (node : Node)
    (sink : DataSink) (es : List DataElement) (v : Vulnerability)
    (h : Vulnerability.from_node ctx node sink es = some v) :
    v.data_element_ids.length = v.data_element_names.length ∧
    ∀ i, i < v.data_element_ids.length →
      ∃ e : DataElement, es[i]? = some e ∧ v.data_element_ids[i]? = some e.id ∧
        v.data_element_names[i]? = some e.name := by
  unfold Vulnerability.from_node at h
  cases hm : min_sensitivity (es.map fun e => e.sensitivity) with
  | none => rw [hm] at h; simp at h
  | some m =>
    rw [hm] at h
    cases hg : ctx.get_code_block node with
    | none => rw [hg] at h; simp at h
    | some seg =>
      rw [hg] at h
      injection h with h
      subst h
      refine ⟨by simp, ?_⟩
      intro i hi
      simp only [List.length_map] at hi
      exact ⟨es[i], by simp [List.getElem?_eq_getElem hi],
        by simp [List.getElem?_map, List.getElem?_eq_getElem hi],
        by simp [List.getElem?_map, List.getElem?_eq_getElem hi]⟩

/-- Witness for C9 at the fixture call with `[el_ssn]`. -/
theorem c9_witness :
    fixture_vuln.data_element_ids.length = fixture_vuln.data_element_names.length ∧
    ∀ i, i < fixture_vuln.data_element_ids.length →
      ∃ e : DataElement, [el_ssn][i]? = some e ∧
        fixture_vuln.data_element_ids[i]? = some e.id ∧
        fixture_vuln.data_element_names[i]? = some e.name :=
  c9_ids_names_aligned fixture_ctx fixture_call_node sink_log [el_ssn]
    fixture_vuln rfl

/-- C10: with an empty scope stack, `put_alias` and `exit_current_scope`
are silent no-ops leaving the whole `FileScanContext` unchanged. -/
theorem c10_empty_scope_noops (ctx : FileScanContext) (h : ctx.scopes = []) :
    (∀ name alias_name, ctx.put_alias name alias_name = ctx) ∧
    ctx.exit_current_scope = ctx := by
  constructor
  · intro name alias_name
    simp [FileScanContext.put_alias, h]
  · unfold FileScanContext.exit_current_scope
    rw [h, show ([] : List CodeScope).dropLast = [] from rfl, ← h]

/-- Witness for C10 at the fixture context, whose scope stack is empty. -/
theorem c10_witness :
    fixture_ctx.scopes = [] ∧
    fixture_ctx.put_alias "name" "alias_value" = fixture_ctx ∧
    fixture_ctx.exit_current_scope = fixture_ctx :=
  ⟨rfl, (c10_empty_scope_noops fixture_ctx rfl).1 "name" "alias_value",
    (c10_empty_scope_noops fixture_ctx rfl).2⟩

/-- Each little-endian word byte is below 256. -/
theorem word_le_bytes_lt (w : Nat) : ∀ b ∈ word_le_bytes w, b < 256 := by
  intro b hb
  simp [word_le_bytes] at hb
  rcases hb with rfl | rfl | rfl | rfl <;> omega

/-- The digest byte list always has 16 entries. -/
theorem md5Bytes_length (msg : List Nat) : (md5Bytes msg).length = 16 := by
  simp [md5Bytes, word_le_bytes]

/-- Every digest byte is below 256. -/
theorem md5Bytes_lt (msg : List Nat) : ∀ b ∈ md5Bytes msg, b < 256 := by
  intro b hb
  simp only [md5Bytes, List.mem_append] at hb
  rcases hb with ((h | h) | h) | h <;> exact word_le_bytes_lt _ _ h

/-- Hex rendering doubles the length. -/
theorem hex_flatten_length (l : List Nat) :
    ((l.map byte_to_hex).flatten).length = 2 * l.length := by
  induction l with
  | nil => simp
  | cons x xs ih => simp [byte_to_hex, ih]; omega

/-- Uppercasing a hex digit of a nibble lands in the uppercase hex
alphabet. -/
theorem hex_upper_mem (n : Nat) (h : n < 16) :
    Char.toUpper (hex_char_lower n) ∈ ("0123456789ABCDEF").data := by
  interval_cases n <;> decide

/-- C4: the finding hash is a pure function of its input string; the
digest is an uppercase hexadecimal string of length 32; the occurrence
hash is the digest of the pipe-joined repository name, branch, element
id, relative path and raw node text; the vulnerability hash is the digest
of the pipe-joined repository name, branch, sink id, relative path and
trimmed node text. -/
theorem c4_identity_hasher :
    (∀ s t : String, s = t → calculate_md5_hash s = calculate_md5_hash t) ∧
    (∀ s : String, (calculate_md5_hash s).length = 32) ∧
    (∀ s : String, ∀ c ∈ (calculate_md5_hash s).data,
      c ∈ ("0123456789ABCDEF").data) ∧
    (∀ (ctx : FileScanContext) (node : Node) (e : DataElement),
      (DataElementOccurrence.from_node ctx node e).hash =
        calculate_md5_hash
          (ctx.config.repository.name ++ "|" ++ ctx.config.repository.branch ++
            "|" ++ e.id ++ "|" ++ ctx.relative_file_path ++ "|" ++
            ctx.get_node_text node)) ∧
    (∀ (ctx : FileScanContext) (node : Node) (sink : DataSink)
        (es : List DataElement) (v : Vulnerability),
      Vulnerability.from_node ctx node sink es = some v →
        v.hash =
          calculate_md5_hash
            (ctx.config.repository.name ++ "|" ++ ctx.config.repository.branch ++
              "|" ++ sink.id ++ "|" ++ ctx.relative_file_path ++ "|" ++
              str_trim (ctx.get_node_text node))) := by
  refine ⟨fun s t h => by rw [h], ?_, ?_, fun ctx node e => rfl, ?_⟩
  · intro s
    show ((((md5Bytes (as_bytes s)).map byte_to_hex).flatten).map Char.toUpper).length = 32
    rw [List.length_map, hex_flatten_length, md5Bytes_length]
  · intro s c hc
    have hc2 : c ∈ (((md5Bytes (as_bytes s)).map byte_to_hex).flatten).map Char.toUpper := hc
    rw [List.mem_map] at hc2
    obtain ⟨c0, hc0, rfl⟩ := hc2
    rw [List.mem_flatten] at hc0
    obtain ⟨piece, hp, hcp⟩ := hc0
    rw [List.mem_map] at hp
    obtain ⟨b, hb, rfl⟩ := hp
    have hb256 := md5Bytes_lt _ _ hb
    simp [byte_to_hex] at hcp
    rcases hcp with rfl | rfl
    · exact hex_upper_mem _ (by omega)
    · exact hex_upper_mem _ (by omega)
  · intro ctx node sink es v h
    unfold Vulnerability.from_node at h
    cases hm : min_sensitivity (es.map fun e => e.sensitivity) with
    | none => rw [hm] at h; simp at h
    | some m =>
      rw [hm] at h
      cases hg : ctx.get_code_block node with
      | none => rw [hg] at h; simp at h
      | some seg => rw [hg] at h; injection h with h; subst h; rfl

/-- Witness for C4 at the string `"x"` and the fixture findings. -/
theorem c4_witness :
    calculate_md5_hash "x" = calculate_md5_hash "x" ∧
    (calculate_md5_hash "x").length = 32 ∧
    ('9' ∈ (calculate_md5_hash "x").data ∧ '9' ∈ ("0123456789ABCDEF").data) ∧
    (DataElementOccurrence.from_node fixture_ctx fixture_call_node el_ssn).hash =
      calculate_md5_hash
        (fixture_ctx.config.repository.name ++ "|" ++
          fixture_ctx.config.repository.branch ++ "|" ++ el_ssn.id ++ "|" ++
          fixture_ctx.relative_file_path ++ "|" ++
          fixture_ctx.get_node_text fixture_call_node) ∧
    fixture_vuln.hash =
      calculate_md5_hash
        (fixture_ctx.config.repository.name ++ "|" ++
          fixture_ctx.config.repository.branch ++ "|" ++ sink_log.id ++ "|" ++
          fixture_ctx.relative_file_path ++ "|" ++
          str_trim (fixture_ctx.get_node_text fixture_call_node)) :=
  ⟨c4_identity_hasher.1 "x" "x" rfl, c4_identity_hasher.2.1 "x",
    ⟨by decide, c4_identity_hasher.2.2.1 "x" '9' (by decide)⟩,
    c4_identity_hasher.2.2.2.1 fixture_ctx fixture_call_node el_ssn,
    c4_identity_hasher.2.2.2.2 fixture_ctx fixture_call_node sink_log [el_ssn]
      fixture_vuln rfl⟩

/-- strum round trip for `Sensitivity`. -/
theorem sensitivity_fromText_toText (s : Sensitivity) :
    Sensitivity.fromText s.toText = some s := by cases s <;> rfl

/-- strum round trip for `Severity`. -/
theorem severity_fromText_toText (s : Severity) :
    Severity.fromText s.toText = some s := by cases s <;> rfl

/-- strum round trip for `Language`. -/
theorem language_fromText_toText (l : Language) :
    Language.fromText l.toText = some l := by cases l <;> rfl

/-- strum round trip for `Source`. -/
theorem source_fromText_toText (s : Source) :
    Source.fromText s.toText = some s := by cases s <;> rfl

/-- Deserialising a stored occurrence row recovers every field, with the
tag list passed through the comma join/split. -/
theorem occurrence_row_roundtrip (o : DataElementOccurrence) :
    row_to_occurrence (occurrence_to_row o) =
      some { o with tags := row_to_vec (join_comma o.tags) } := by
  unfold row_to_occurrence occurrence_to_row
  simp [sensitivity_fromText_toText, language_fromText_toText,
    source_fromText_toText]

/-- Deserialising a stored vulnerability row recovers every field, with
the four string sequences passed through the comma join/split. -/
theorem vulnerability_row_roundtrip (w : Vulnerability) :
    row_to_vulnerability (vulnerability_to_row w) =
      some { w with
        data_element_ids := row_to_vec (join_comma w.data_element_ids),
        data_element_names := row_to_vec (join_comma w.data_element_names),
        cwe := row_to_vec (join_comma w.cwe),
        owasp := row_to_vec (join_comma w.owasp) } := by
  unfold row_to_vulnerability vulnerability_to_row
  simp [severity_fromText_toText, language_fromText_toText]

/-- C6: a finding is written if and only if its hash is outside the
configured skip set: a skipped finding leaves the store untouched, and a
written one is read back by the store's read operation, appended to what
was readable before. -/
theorem c6_skip_filter (ctx : FileScanContext) (db : ScanDatabase)
    (o : DataElementOccurrence) (w : Vulnerability) :
    (o.hash ∈ ctx.config.skip_occurrences → ctx.put_occurrence db o = db) ∧
    (o.hash ∉ ctx.config.skip_occurrences →
      ∀ l, db.get_data_element_occurrences = some l →
        (ctx.put_occurrence db o).get_data_element_occurrences =
          some (l ++ [{ o with tags := row_to_vec (join_comma o.tags) }])) ∧
    (w.hash ∈ ctx.config.skip_vulnerabilities → ctx.put_vulnerability db w = db) ∧
    (w.hash ∉ ctx.config.skip_vulnerabilities →
      ∀ l, db.get_vulnerabilities = some l →
        (ctx.put_vulnerability db w).get_vulnerabilities =
          some (l ++ [{ w with
            data_element_ids := row_to_vec (join_comma w.data_element_ids),
            data_element_names := row_to_vec (join_comma w.data_element_names),
            cwe := row_to_vec (join_comma w.cwe),
            owasp := row_to_vec (join_comma w.owasp) }])) := by
  refine ⟨?_, ?_, ?_, ?_⟩
  · intro h
    simp [FileScanContext.put_occurrence, h]
  · intro h l hl
    have hput : ctx.put_occurrence db o = db.put_data_element_occurrence o := by
      simp [FileScanContext.put_occurrence, h]
    rw [hput]
    unfold ScanDatabase.get_data_element_occurrences at hl ⊢
    unfold ScanDatabase.put_data_element_occurrence
    rw [List.mapM_append, hl]
    simp [List.mapM.loop, occurrence_row_roundtrip]
  · intro h
    simp [FileScanContext.put_vulnerability, h]
  · intro h l hl
    have hput : ctx.put_vulnerability db w = db.put_vulnerability w := by
      simp [FileScanContext.put_vulnerability, h]
    rw [hput]
    unfold ScanDatabase.get_vulnerabilities at hl ⊢
    unfold ScanDatabase.put_vulnerability
    rw [List.mapM_append, hl]
    simp [List.mapM.loop, vulnerability_row_roundtrip]

/-- Splitting a separator-free character list is the identity piece. -/
theorem split_char_no_sep (sep : Char) (l : List Char) (h : sep ∉ l) :
    split_char sep l = [l] := by
  induction l with
  | nil => rfl
  | cons c cs ih =>
    simp only [List.mem_cons, not_or] at h
    have hc : ¬(c = sep) := fun hh => h.1 hh.symm
    simp [split_char, hc, ih h.2]

/-- Splitting after a separator-free prefix peels that prefix off. -/
theorem split_char_sep_append (sep : Char) (a b : List Char) (h : sep ∉ a) :
    split_char sep (a ++ sep :: b) = a :: split_char sep b := by
  induction a with
  | nil => simp [split_char]
  | cons c cs ih =>
    simp only [List.mem_cons, not_or] at h
    have hc : ¬(c = sep) := fun hh => h.1 hh.symm
    simp only [List.cons_append, split_char, hc, if_false]
    rw [show cs.append (sep :: b) = cs ++ sep :: b from rfl, ih h.2]

/-- The characters of a comma join with at least two pieces. -/
theorem join_comma_data_cons (s x : String) (xs : List String) :
    (join_comma (s :: x :: xs)).data = s.data ++ ',' :: (join_comma (x :: xs)).data := by
  show (s ++ "," ++ join_comma (x :: xs)).data = _
  simp [String.data_append]

/-- Splitting a comma join of non-empty, comma-free pieces recovers the
pieces. -/
theorem row_to_vec_join_comma (l : List String) (hne : l ≠ [])
    (hc : ∀ t ∈ l, ',' ∉ t.data) : row_to_vec (join_comma l) = l := by
  induction l with
  | nil => cases hne rfl
  | cons s rest ih =>
    cases rest with
    | nil =>
      show (split_char ',' (join_comma [s]).data).map String.mk = [s]
      rw [show join_comma [s] = s from rfl,
        split_char_no_sep ',' s.data (hc s (by simp))]
      rfl
    | cons x xs =>
      show (split_char ',' (join_comma (s :: x :: xs)).data).map String.mk = _
      rw [join_comma_data_cons,
        split_char_sep_append ',' s.data _ (hc s (by simp))]
      have hrest := ih (by simp) fun t ht => hc t (List.mem_cons_of_mem _ ht)
      rw [List.map_cons, show (split_char ',' (join_comma (x :: xs)).data).map String.mk =
        row_to_vec (join_comma (x :: xs)) from rfl, hrest]

/-- C8 counterexample: an occurrence whose tag list is empty does not
read back equal — the empty sequence is stored as the empty string,
which splits into one empty tag. -/
theorem c8_counterexample :
    (db0.put_data_element_occurrence occ_no_tags).get_data_element_occurrences ≠
      some [occ_no_tags] ∧
    (db0.put_data_element_occurrence occ_no_tags).get_data_element_occurrences =
      some [{ occ_no_tags with tags := [""] }] := by
  constructor
  · decide
  · decide

/-- C8 amended: writing an occurrence or vulnerability whose
string-sequence fields are all non-empty and whose sequence entries
contain no comma, then reading the store back, yields exactly the written
record appended to the previous contents — every string, enum, integer
and sequence field exact. -/
theorem c8_roundtrip (db : ScanDatabase) (o : DataElementOccurrence)
    (w : Vulnerability)
    (hot : o.tags ≠ []) (hoc : ∀ t ∈ o.tags, ',' ∉ t.data)
    (hw1 : w.data_element_ids ≠ []) (hwc1 : ∀ t ∈ w.data_element_ids, ',' ∉ t.data)
    (hw2 : w.data_element_names ≠ []) (hwc2 : ∀ t ∈ w.data_element_names, ',' ∉ t.data)
    (hw3 : w.cwe ≠ []) (hwc3 : ∀ t ∈ w.cwe, ',' ∉ t.data)
    (hw4 : w.owasp ≠ []) (hwc4 : ∀ t ∈ w.owasp, ',' ∉ t.data) :
    (∀ l, db.get_data_element_occurrences = some l →
      (db.put_data_element_occurrence o).get_data_element_occurrences =
        some (l ++ [o])) ∧
    (∀ l, db.get_vulnerabilities = some l →
      (db.put_vulnerability w).get_vulnerabilities = some (l ++ [w])) := by
  constructor
  · intro l hl
    unfold ScanDatabase.get_data_element_occurrences at hl ⊢
    unfold ScanDatabase.put_data_element_occurrence
    rw [List.mapM_append, hl]
    have hr := occurrence_row_roundtrip o
    rw [row_to_vec_join_comma o.tags hot hoc] at hr
    simp [List.mapM.loop, hr]
  · intro l hl
    unfold ScanDatabase.get_vulnerabilities at hl ⊢
    unfold ScanDatabase.put_vulnerability
    rw [List.mapM_append, hl]
    have hr := vulnerability_row_roundtrip w
    rw [row_to_vec_join_comma w.data_element_ids hw1 hwc1,
      row_to_vec_join_comma w.data_element_names hw2 hwc2,
      row_to_vec_join_comma w.cwe hw3 hwc3,
      row_to_vec_join_comma w.owasp hw4 hwc4] at hr
    simp [List.mapM.loop, hr]

/-- Witness for C8 at a concrete occurrence and vulnerability with
non-empty, comma-free sequences against the empty store. -/
theorem c8_witness :
    (occ_h1.tags ≠ [] ∧ vuln_h2.data_element_ids ≠ []) ∧
    (db0.put_data_element_occurrence occ_h1).get_data_element_occurrences =
      some ([] ++ [occ_h1]) ∧
    (db0.put_vulnerability vuln_h2).get_vulnerabilities = some ([] ++ [vuln_h2]) :=
  ⟨⟨by decide, by decide⟩,
    (c8_roundtrip db0 occ_h1 vuln_h2 (by decide) (by decide) (by decide) (by decide)
      (by decide) (by decide) (by decide) (by decide) (by decide) (by decide)).1 [] rfl,
    (c8_roundtrip db0 occ_h1 vuln_h2 (by decide) (by decide) (by decide) (by decide)
      (by decide) (by decide) (by decide) (by decide) (by decide) (by decide)).2 [] rfl⟩

/-- `split_char` never returns the empty list. -/
theorem split_char_ne_nil (sep : Char) (l : List Char) : split_char sep l ≠ [] := by
  cases l with
  | nil => simp [split_char]
  | cons c cs =>
    unfold split_char
    by_cases hc : c = sep
    · simp [hc]
    · simp only [hc, if_false]
      cases split_char sep cs <;> simp

/-- No piece produced by `split_char` contains the separator. -/
theorem split_char_not_mem (sep : Char) (l : List Char) :
    ∀ p ∈ split_char sep l, sep ∉ p := by
  induction l with
  | nil => intro p hp; simp [split_char] at hp; simp [hp]
  | cons c cs ih =>
    intro p hp
    unfold split_char at hp
    by_cases hc : c = sep
    · simp only [hc, if_true, List.mem_cons] at hp
      rcases hp with rfl | hp
      · simp
      · exact ih p hp
    · simp only [hc, if_false] at hp
      cases hsp : split_char sep cs with
      | nil => exact absurd hsp (split_char_ne_nil sep cs)
      | cons h t =>
        rw [hsp] at hp
        rcases List.mem_cons.mp hp with rfl | hp
        · intro hmem
          rcases List.mem_cons.mp hmem with hs | hs
          · exact hc hs.symm
          · exact ih h (by rw [hsp]; exact List.mem_cons_self _ _) hs
        · exact ih p (by rw [hsp]; exact List.mem_cons_of_mem _ hp)

/-- A one-piece split means the separator was absent and the piece is the
whole input. -/
theorem split_char_singleton (sep : Char) (l : List Char) (x : List Char)
    (h : split_char sep l = [x]) : x = l := by
  induction l generalizing x with
  | nil => simp [split_char] at h; exact h
  | cons c cs ih =>
    unfold split_char at h
    by_cases hc : c = sep
    · simp only [hc, if_true] at h
      cases hsp : split_char sep cs with
      | nil => exact absurd hsp (split_char_ne_nil sep cs)
      | cons a t => rw [hsp] at h; simp at h
    · simp only [hc, if_false] at h
      cases hsp : split_char sep cs with
      | nil => exact absurd hsp (split_char_ne_nil sep cs)
      | cons a t =>
        rw [hsp] at h
        injection h with h1 h2
        cases h2
        have := ih a hsp
        rw [← h1, this]

/-- Splitting a concatenation whose first part is separator-free prepends
that part to the first piece of the rest. -/
theorem split_char_append (sep : Char) (a b : List Char) (h : sep ∉ a)
    (hh : List Char) (ht : List (List Char)) (hb : split_char sep b = hh :: ht) :
    split_char sep (a ++ b) = (a ++ hh) :: ht := by
  induction a with
  | nil => simpa using hb
  | cons c cs ih =>
    simp only [List.mem_cons, not_or] at h
    have hc : ¬(c = sep) := fun e => h.1 e.symm
    simp only [List.cons_append, split_char, hc, if_false]
    rw [show cs.append b = cs ++ b from rfl, ih h.2]

/-- `join("\n")` on two or more pieces. -/
theorem intercalate_cons_cons (sep : Char) (x y : List Char) (l : List (List Char)) :
    List.intercalate [sep] (x :: y :: l) =
      x ++ sep :: List.intercalate [sep] (y :: l) := by
  simp [List.intercalate, List.intersperse]

/-- Splitting a join of separator-free pieces recovers the pieces. -/
theorem split_char_intercalate (sep : Char) (pieces : List (List Char))
    (hne : pieces ≠ []) (h : ∀ p ∈ pieces, sep ∉ p) :
    split_char sep (List.intercalate [sep] pieces) = pieces := by
  induction pieces with
  | nil => cases hne rfl
  | cons x rest ih =>
    cases rest with
    | nil =>
      rw [show List.intercalate [sep] [x] = x by simp [List.intercalate]]
      exact split_char_no_sep sep x (h x (by simp))
    | cons y ys =>
      rw [intercalate_cons_cons]
      rw [split_char_sep_append sep x _ (h x (by simp))]
      rw [ih (by simp) fun p hp => h p (List.mem_cons_of_mem _ hp)]

/-- Members of a stripped line are members of the line. -/
theorem strip_cr_subset (l : List Char) : ∀ c ∈ strip_cr l, c ∈ l := by
  intro c hc
  unfold strip_cr at hc
  by_cases h : l.getLast? = some '\x0d'
  · simp only [h, if_true] at hc
    exact List.dropLast_subset _ hc
  · simpa [h] using hc

/-- No line produced by `rust_lines` contains a newline. -/
theorem rust_lines_no_nl (s : List Char) :
    ∀ line ∈ rust_lines s, '\x0a' ∉ line := by
  intro line hline hmem
  unfold rust_lines at hline
  rw [List.mem_map] at hline
  obtain ⟨piece, hp, rfl⟩ := hline
  have hpiece : piece ∈ split_char '\x0a' s := by
    by_cases hlast : (split_char '\x0a' s).getLast? = some []
    · simp only [hlast, if_true] at hp
      exact List.dropLast_subset _ hp
    · simpa [hlast] using hp
  exact split_char_not_mem '\x0a' s piece hpiece (strip_cr_subset _ _ hmem)

/-- Stripping a carriage return distributes over a space prefix. -/
theorem strip_cr_replicate_append (n : Nat) (h : List Char) :
    strip_cr (List.replicate n ' ' ++ h) = List.replicate n ' ' ++ strip_cr h := by
  cases h with
  | nil =>
    simp only [List.append_nil]
    unfold strip_cr
    cases n with
    | zero => rfl
    | succ k =>
      have hg : (List.replicate (k + 1) ' ').getLast? = some ' ' := by
        rw [List.getLast?_eq_getLast _ (by simp), List.getLast_replicate]
      simp [hg]
  | cons c cs =>
    unfold strip_cr
    have hg : (List.replicate n ' ' ++ c :: cs).getLast? = (c :: cs).getLast? := by
      rw [List.getLast?_append]
      cases hlast : (c :: cs).getLast? with
      | none => simp at hlast
      | some a => rfl
    rw [hg]
    by_cases hl : (c :: cs).getLast? = some '\x0d'
    · simp only [hl, if_true]
      rw [List.dropLast_append_of_ne_nil _ (by simp)]
    · simp [hl]

/-- Leading whitespace of a prefix. -/
theorem leading_ws_take (j : Nat) (l : List Char) :
    leading_ws (l.take j) = min j (leading_ws l) := by
  induction l generalizing j with
  | nil => simp [leading_ws]
  | cons c cs ih =>
    cases j with
    | zero => simp [leading_ws]
    | succ k =>
      by_cases hc : c.isWhitespace
      · simp only [List.take_succ_cons, leading_ws, List.takeWhile_cons, hc, if_true,
          List.length_cons] at *
        rw [ih]
        omega
      · simp [leading_ws, List.takeWhile_cons, hc]

/-- Dropping the last character cannot increase leading whitespace. -/
theorem leading_ws_dropLast_le (l : List Char) :
    leading_ws l.dropLast ≤ leading_ws l := by
  rw [List.dropLast_eq_take, leading_ws_take]
  omega

/-- Stripping a carriage return cannot increase leading whitespace. -/
theorem leading_ws_strip_cr_le (l : List Char) :
    leading_ws (strip_cr l) ≤ leading_ws l := by
  unfold strip_cr
  by_cases h : l.getLast? = some '\x0d'
  · simp [h, leading_ws_dropLast_le]
  · simp [h]

/-- Leading whitespace after a space prefix. -/
theorem leading_ws_replicate_append (n : Nat) (l : List Char) :
    leading_ws (List.replicate n ' ' ++ l) = n + leading_ws l := by
  induction n with
  | zero => simp
  | succ k ih =>
    rw [List.replicate_succ, List.cons_append]
    simp only [leading_ws, List.takeWhile_cons, show (' ' : Char).isWhitespace = true by decide,
      if_true, List.length_cons] at *
    omega

/-- If the whitespace drop empties a list, everything in it was
whitespace. -/
theorem all_ws_of_dropWhile_nil (l : List Char)
    (h : l.dropWhile Char.isWhitespace = []) : ∀ c ∈ l, c.isWhitespace = true := by
  induction l with
  | nil => simp
  | cons c cs ih =>
    rw [List.dropWhile_cons] at h
    by_cases hc : c.isWhitespace
    · simp only [hc, if_true] at h
      intro d hd
      rcases List.mem_cons.mp hd with rfl | hd
      · exact hc
      · exact ih h d hd
    · simp [hc] at h

/-- A non-whitespace member keeps the whitespace drop non-empty. -/
theorem dropWhile_ne_nil_of_mem (l : List Char) (c : Char) (hc : c ∈ l)
    (hw : ¬ c.isWhitespace = true) : l.dropWhile Char.isWhitespace ≠ [] := by
  intro h
  exact hw (all_ws_of_dropWhile_nil l h c hc)

/-- A blank line (empty trim) is all whitespace. -/
theorem rust_trim_empty_all_ws (l : List Char)
    (h : (rust_trim l).isEmpty = true) : ∀ c ∈ l, c.isWhitespace = true := by
  intro c hc
  by_contra hw
  have h1 : l.dropWhile Char.isWhitespace ≠ [] := dropWhile_ne_nil_of_mem l c hc hw
  have hc2 : c ∈ l.dropWhile Char.isWhitespace := by
    have hsplit := List.takeWhile_append_dropWhile Char.isWhitespace l
    rcases List.mem_append.mp (by rw [hsplit]; exact hc) with h2 | h2
    · exact absurd (List.mem_takeWhile_imp h2) hw
    · exact h2
  have hc3 : c ∈ (l.dropWhile Char.isWhitespace).reverse.dropWhile Char.isWhitespace := by
    have hsplit := List.takeWhile_append_dropWhile Char.isWhitespace
      (l.dropWhile Char.isWhitespace).reverse
    rcases List.mem_append.mp
        (by rw [hsplit]; exact List.mem_reverse.mpr hc2) with h2 | h2
    · exact absurd (List.mem_takeWhile_imp h2) hw
    · exact h2
  have : rust_trim l ≠ [] := by
    unfold rust_trim
    intro he
    rw [List.reverse_eq_nil_iff] at he
    rw [he] at hc3
    cases hc3
  rw [List.isEmpty_iff] at h
  exact this h

/-- A non-blank line has a character after its leading whitespace. -/
theorem nonblank_lw_lt (l : List Char) (h : (rust_trim l).isEmpty = false) :
    leading_ws l < l.length := by
  have hdw : l.dropWhile Char.isWhitespace ≠ [] := by
    intro hd
    have : rust_trim l = [] := by
      unfold rust_trim
      rw [hd]
      rfl
    rw [this] at h
    cases h
  have hsplit := List.takeWhile_append_dropWhile Char.isWhitespace l
  have hlen : l.length =
      leading_ws l + (l.dropWhile Char.isWhitespace).length := by
    calc l.length = (l.takeWhile Char.isWhitespace ++ l.dropWhile Char.isWhitespace).length := by
          rw [hsplit]
      _ = leading_ws l + (l.dropWhile Char.isWhitespace).length := by
          rw [List.length_append]; rfl
  have : 0 < (l.dropWhile Char.isWhitespace).length := List.length_pos.mpr hdw
  omega

/-- An all-whitespace line is its own leading whitespace. -/
theorem leading_ws_eq_length_of_all_ws (l : List Char)
    (h : ∀ c ∈ l, c.isWhitespace = true) : leading_ws l = l.length := by
  unfold leading_ws
  rw [List.takeWhile_eq_self_iff.mpr h]

/-- Dropping no more than the leading whitespace removes exactly that
much of it. -/
theorem leading_ws_drop_of_le (k : Nat) (l : List Char) (h : k ≤ leading_ws l) :
    leading_ws (l.drop k) = leading_ws l - k := by
  induction k generalizing l with
  | zero => simp
  | succ j ih =>
    cases l with
    | nil => simp [leading_ws] at h
    | cons c cs =>
      by_cases hc : c.isWhitespace
      · have hlw : leading_ws (c :: cs) = leading_ws cs + 1 := by
          simp [leading_ws, List.takeWhile_cons, hc]
        rw [List.drop_succ_cons, ih cs (by omega), hlw]
        omega
      · simp [leading_ws, List.takeWhile_cons, hc] at h
/-- Dedenting a line of the block cannot increase its leading whitespace
when the line is blank or the cut is within its leading whitespace. -/
theorem leading_ws_drop_le (k : Nat) (l : List Char)
    (h : (rust_trim l).isEmpty = true ∨ k ≤ leading_ws l) :
    leading_ws (l.drop k) ≤ leading_ws l := by
  rcases h with h | h
  · have hall := rust_trim_empty_all_ws l h
    have h1 : leading_ws l = l.length := leading_ws_eq_length_of_all_ws l hall
    have h2 : leading_ws (l.drop k) = (l.drop k).length :=
      leading_ws_eq_length_of_all_ws _ fun c hc => hall c (List.drop_subset _ _ hc)
    rw [h1, h2, List.length_drop]
    omega
  · rw [leading_ws_drop_of_le k l h]
    omega

/-- The fold behind `Iterator::min` over naturals is a lower bound. -/
theorem nat_foldl_min_le (l : List Nat) :
    ∀ a : Nat, l.foldl min a ≤ a ∧ ∀ b ∈ l, l.foldl min a ≤ b := by
  induction l with
  | nil => simp
  | cons x xs ih =>
    intro a
    simp only [List.foldl_cons]
    refine ⟨le_trans (ih (min a x)).1 (min_le_left _ _), ?_⟩
    intro b hb
    rcases List.mem_cons.mp hb with rfl | hb
    · exact le_trans (ih (min a b)).1 (min_le_right _ _)
    · exact (ih (min a x)).2 b hb

/-- The minimum indent is at most the leading whitespace of every
non-blank line. -/
theorem min_indent_le (code_lines : List (List Char)) (line : List Char)
    (hmem : line ∈ code_lines) (hnb : (rust_trim line).isEmpty = false) :
    min_indent code_lines ≤ leading_ws line := by
  unfold min_indent
  have hin : leading_ws line ∈
      (code_lines.filter fun l => !(rust_trim l).isEmpty).map leading_ws :=
    List.mem_map_of_mem _ (List.mem_filter.mpr ⟨hmem, by simp [hnb]⟩)
  cases hsp : (code_lines.filter fun l => !(rust_trim l).isEmpty).map leading_ws with
  | nil => rw [hsp] at hin; cases hin
  | cons a as =>
    rw [hsp] at hin
    rw [show (a :: as).min? = some (as.foldl min a) from rfl]
    simp only [Option.getD_some]
    rcases List.mem_cons.mp hin with heq | hin
    · rw [heq]; exact (nat_foldl_min_le as _).1
    · exact (nat_foldl_min_le as a).2 _ hin

/-- A non-empty text has at least one line. -/
theorem rust_lines_ne_nil (T : List Char) (hT : T ≠ []) : rust_lines T ≠ [] := by
  unfold rust_lines
  cases hsp : split_char '\x0a' T with
  | nil => exact absurd hsp (split_char_ne_nil _ _)
  | cons h t =>
    cases t with
    | nil =>
      have hhT : h = T := split_char_singleton _ _ _ hsp
      rw [hhT]
      simp [hT]
    | cons t0 ts =>
      by_cases hlast : (t0 :: ts).getLast? = some ([] : List Char)
      · simp [List.getLast?_cons_cons, hlast]
      · simp [List.getLast?_cons_cons, hlast]

/-- The lines of a space-padded non-empty text: the padding lands on the
first line, the rest are unchanged. -/
theorem rust_lines_replicate_append (n : Nat) (T : List Char) (hT : T ≠ []) :
    rust_lines (List.replicate n ' ' ++ T) =
      (List.replicate n ' ' ++ (rust_lines T).headD []) :: (rust_lines T).tail := by
  have hnp : '\x0a' ∉ List.replicate n ' ' := by
    intro hm
    have := List.eq_of_mem_replicate hm
    cases this
  cases hsp : split_char '\x0a' T with
  | nil => exact absurd hsp (split_char_ne_nil _ _)
  | cons h t =>
    have hPs : split_char '\x0a' (List.replicate n ' ' ++ T) =
        (List.replicate n ' ' ++ h) :: t :=
      split_char_append '\x0a' _ T hnp h t hsp
    cases t with
    | nil =>
      have hhT : h = T := split_char_singleton _ _ _ hsp
      subst hhT
      have h2 : ¬(List.replicate n ' ' ++ h = []) := by
        intro he
        exact hT (List.append_eq_nil.mp he).2
      unfold rust_lines
      rw [hsp, hPs]
      simp [hT, h2, strip_cr_replicate_append]
    | cons t0 ts =>
      unfold rust_lines
      rw [hsp, hPs]
      simp only [List.getLast?_cons_cons]
      by_cases hlast : (t0 :: ts).getLast? = some ([] : List Char)
      · simp only [hlast, if_true]
        rw [List.dropLast_cons_of_ne_nil (show (t0 :: ts) ≠ [] by simp),
          List.dropLast_cons_of_ne_nil (show (t0 :: ts) ≠ [] by simp)]
        simp [strip_cr_replicate_append]
      · simp only [hlast, if_false]
        simp [strip_cr_replicate_append]

/-- An empty text yields at most one (padding-only) line. -/
theorem rust_lines_replicate (n : Nat) :
    rust_lines (List.replicate n ' ') = if n = 0 then [] else [List.replicate n ' '] := by
  cases n with
  | zero => rfl
  | succ k =>
    have hnp : '\x0a' ∉ List.replicate (k + 1) ' ' := by
      intro hm
      have := List.eq_of_mem_replicate hm
      cases this
    unfold rust_lines
    rw [split_char_no_sep _ _ hnp]
    have h2 : strip_cr (List.replicate (k + 1) ' ') = List.replicate (k + 1) ' ' := by
      have h3 := strip_cr_replicate_append (k + 1) []
      rw [List.append_nil] at h3
      rw [h3, show strip_cr ([] : List Char) = [] from rfl, List.append_nil]
    simp [h2]

/-- The lines of the dedented block: the dedented lines re-split into
themselves, minus a final line dedented to emptiness, re-stripped of
carriage returns. -/
theorem rust_lines_dedent (L : List (List Char)) (m : Nat) (hne : L ≠ [])
    (hnl : ∀ line ∈ L, '\x0a' ∉ line) :
    rust_lines (List.intercalate ['\x0a'] (L.map fun line => line.drop m)) =
      (if (L.map fun line => line.drop m).getLast? = some [] then
          (L.map fun line => line.drop m).dropLast
        else L.map fun line => line.drop m).map strip_cr := by
  have hpieces : ∀ p ∈ L.map fun line => line.drop m, '\x0a' ∉ p := by
    intro p hp
    rw [List.mem_map] at hp
    obtain ⟨line, hl, rfl⟩ := hp
    intro hmem
    exact hnl line hl (List.drop_subset _ _ hmem)
  unfold rust_lines
  rw [split_char_intercalate '\x0a' _ (by simpa using hne) hpieces]

/-- Reading a mapped line through `getD []` commutes with functions
fixing `[]`. -/
theorem getD_map_strip_cr (N : List (List Char)) (i : Nat) :
    (N.map strip_cr).getD i [] = strip_cr (N.getD i []) := by
  rw [List.getD_eq_getElem?_getD, List.getElem?_map, List.getD_eq_getElem?_getD]
  cases hN : N[i]? with
  | none => rfl
  | some x => rfl

/-- Reading the dedent map through `getD []`. -/
theorem getD_map_drop (L : List (List Char)) (m i : Nat) :
    ((L.map fun line => line.drop m).getD i []) = (L.getD i []).drop m := by
  rw [List.getD_eq_getElem?_getD, List.getElem?_map, List.getD_eq_getElem?_getD]
  cases hN : L[i]? with
  | none => simp
  | some x => rfl

/-- Every line of the dedented block has at most the leading whitespace
of the corresponding line of the padded block. -/
theorem dedent_line_le (L : List (List Char)) (m i : Nat) (hne : L ≠ [])
    (hnl : ∀ line ∈ L, '\x0a' ∉ line)
    (hm : ∀ line ∈ L, (rust_trim line).isEmpty = false → m ≤ leading_ws line) :
    leading_ws ((rust_lines (List.intercalate ['\x0a']
      (L.map fun line => line.drop m))).getD i []) ≤ leading_ws (L.getD i []) := by
  rw [rust_lines_dedent L m hne hnl]
  have hdrop : leading_ws ((L.getD i []).drop m) ≤ leading_ws (L.getD i []) := by
    by_cases hi : i < L.length
    · have hmem : L.getD i [] ∈ L := by
        rw [List.getD_eq_getElem?_getD, List.getElem?_eq_getElem hi]
        exact List.getElem_mem _
      refine leading_ws_drop_le m _ ?_
      by_cases hb : (rust_trim (L.getD i [])).isEmpty = true
      · exact Or.inl hb
      · exact Or.inr (hm _ hmem (by simpa using hb))
    · rw [List.getD_eq_default _ _ (by omega)]
      simp [leading_ws]
  by_cases hlast : (L.map fun line => line.drop m).getLast? = some []
  · simp only [hlast, if_true]
    rw [getD_map_strip_cr]
    refine le_trans (leading_ws_strip_cr_le _) ?_
    by_cases hi2 : i < ((L.map fun line => line.drop m).dropLast).length
    · have : ((L.map fun line => line.drop m).dropLast).getD i [] =
          (L.map fun line => line.drop m).getD i [] := by
        rw [List.getD_eq_getElem?_getD, List.getD_eq_getElem?_getD,
          List.getElem?_eq_getElem hi2,
          List.getElem?_eq_getElem (by
            have := List.length_dropLast (L.map fun line => line.drop m)
            omega)]
        rw [List.getElem_dropLast]

      rw [this, getD_map_drop]
      exact hdrop
    · rw [List.getD_eq_default _ _ (by omega)]
      simp [leading_ws]
  · simp only [hlast, if_false]
    rw [getD_map_strip_cr, getD_map_drop]
    exact le_trans (leading_ws_strip_cr_le _) hdrop

/-- The tail of a non-empty list shifts `getD` by one. -/
theorem getD_tail (l : List (List Char)) (j : Nat) (hne : l ≠ []) :
    l.tail.getD j [] = l.getD (j + 1) [] := by
  cases l with
  | nil => cases hne rfl
  | cons x xs => rfl

/-- C7 helper: lines at index one or more compare against the unpadded
text lines. -/
theorem c7_later_lines (n : Nat) (T : List Char) (i : Nat) (hi : 1 ≤ i) :
    leading_ws ((rust_lines (List.intercalate ['\x0a']
      ((rust_lines (List.replicate n ' ' ++ T)).map fun line =>
        line.drop (min_indent (rust_lines (List.replicate n ' ' ++ T)))))).getD i []) ≤
      leading_ws ((rust_lines T).getD i []) := by
  by_cases hL : rust_lines (List.replicate n ' ' ++ T) = []
  · rw [hL]
    simp [List.intercalate]
    rw [show rust_lines [] = [] from rfl]
    simp [leading_ws]
  · have hd := dedent_line_le (rust_lines (List.replicate n ' ' ++ T))
      (min_indent (rust_lines (List.replicate n ' ' ++ T))) i hL
      (rust_lines_no_nl _) (fun line hmem hnb => min_indent_le _ line hmem hnb)
    refine le_trans hd ?_
    by_cases hT : T = []
    · subst hT
      rw [List.append_nil] at *
      rw [rust_lines_replicate] at *
      by_cases hn : n = 0
      · simp [hn] at hL
      · simp only [hn, if_false]
        rw [List.getD_eq_default _ _ (by simpa using hi)]
        simp [leading_ws]
    · rw [rust_lines_replicate_append n T hT]
      obtain ⟨j, rfl⟩ : ∃ j, i = j + 1 := ⟨i - 1, by omega⟩
      rw [show ((List.replicate n ' ' ++ (rust_lines T).headD []) ::
          (rust_lines T).tail).getD (j + 1) [] = (rust_lines T).tail.getD j [] from rfl]
      rw [getD_tail _ _ (rust_lines_ne_nil T hT)]

/-- C7 helper: the first line's leading whitespace is bounded by the
start column plus the original first line's. -/
theorem c7_first_line (n : Nat) (T : List Char) :
    leading_ws ((rust_lines (List.intercalate ['\x0a']
      ((rust_lines (List.replicate n ' ' ++ T)).map fun line =>
        line.drop (min_indent (rust_lines (List.replicate n ' ' ++ T)))))).getD 0 []) ≤
      n + leading_ws ((rust_lines T).getD 0 []) := by
  by_cases hL : rust_lines (List.replicate n ' ' ++ T) = []
  · rw [hL]
    simp [List.intercalate]
    rw [show rust_lines [] = [] from rfl]
    simp [leading_ws]
  · have hd := dedent_line_le (rust_lines (List.replicate n ' ' ++ T))
      (min_indent (rust_lines (List.replicate n ' ' ++ T))) 0 hL
      (rust_lines_no_nl _) (fun line hmem hnb => min_indent_le _ line hmem hnb)
    refine le_trans hd ?_
    by_cases hT : T = []
    · subst hT
      rw [List.append_nil] at *
      rw [rust_lines_replicate] at *
      by_cases hn : n = 0
      · simp [hn] at hL
      · simp only [hn, if_false]
        rw [show ([List.replicate n ' '].getD 0 []) = List.replicate n ' ' from rfl]
        have := leading_ws_replicate_append n []
        rw [List.append_nil] at this
        rw [this]
        simp [leading_ws]
    · rw [rust_lines_replicate_append n T hT]
      rw [show ((List.replicate n ' ' ++ (rust_lines T).headD []) ::
          (rust_lines T).tail).getD 0 [] =
          List.replicate n ' ' ++ (rust_lines T).headD [] from rfl]
      rw [leading_ws_replicate_append]
      have heq : (rust_lines T).getD 0 [] = (rust_lines T).headD [] := by
        cases rust_lines T <;> rfl
      rw [heq]

/-- C7 helper: when the text is non-empty and the last padded line is
non-blank, dedenting preserves the line count. -/
theorem c7_line_count (n : Nat) (T : List Char) (hT : T ≠ []) (ll : List Char)
    (hlast : (rust_lines (List.replicate n ' ' ++ T)).getLast? = some ll)
    (hnb : (rust_trim ll).isEmpty = false) :
    (rust_lines (List.intercalate ['\x0a']
      ((rust_lines (List.replicate n ' ' ++ T)).map fun line =>
        line.drop (min_indent (rust_lines (List.replicate n ' ' ++ T)))))).length =
      (rust_lines T).length := by
  have hL : rust_lines (List.replicate n ' ' ++ T) ≠ [] := by
    intro h
    rw [h] at hlast
    cases hlast
  rw [rust_lines_dedent _ _ hL (rust_lines_no_nl _)]
  have hmem : ll ∈ rust_lines (List.replicate n ' ' ++ T) :=
    List.mem_of_mem_getLast? hlast
  have hm : min_indent (rust_lines (List.replicate n ' ' ++ T)) ≤ leading_ws ll :=
    min_indent_le _ ll hmem hnb
  have hlw : leading_ws ll < ll.length := nonblank_lw_lt ll hnb
  have hmap : ((rust_lines (List.replicate n ' ' ++ T)).map fun line =>
      line.drop (min_indent (rust_lines (List.replicate n ' ' ++ T)))).getLast? =
      some (ll.drop (min_indent (rust_lines (List.replicate n ' ' ++ T)))) := by
    rw [List.getLast?_map, hlast]
    rfl
  have hne2 : ll.drop (min_indent (rust_lines (List.replicate n ' ' ++ T))) ≠ [] := by
    rw [Ne, List.drop_eq_nil_iff]
    omega
  have hcond : ¬(((rust_lines (List.replicate n ' ' ++ T)).map fun line =>
      line.drop (min_indent (rust_lines (List.replicate n ' ' ++ T)))).getLast? =
      some []) := by
    rw [hmap]
    intro he
    injection he with he
    exact hne2 he
  simp only [hcond, if_false]
  rw [List.length_map, List.length_map]
  rw [rust_lines_replicate_append n T hT]
  have : rust_lines T ≠ [] := rust_lines_ne_nil T hT
  cases hlines : rust_lines T with
  | nil => exact absurd hlines this
  | cons a as => simp

/-- C7 counterexample: three concrete nodes on which the claim fails.
For node text `"  a\n "` the blank last line is shorter than the minimum
indent, so the dedent slice panics and no string is returned at all; for
node text `"  a\n  "` the call completes but the blank last line dedents
to the empty string, which the final `lines()` drops (one line against
two); for node text `"x\ny"` at start column 4 the first result line has
four leading spaces while the original first line has none. -/
theorem c7_counterexample :
    c7_ctx.get_code_block c7_node = none ∧
    ((c7_ctx4.get_code_block c7_node4).map
        (fun s => (rust_lines s.data).length) = some 1 ∧
      (rust_lines (c7_ctx4.get_node_text c7_node4).data).length = 2) ∧
    ((c7_ctx2.get_code_block c7_node2).map
        (fun s => leading_ws ((rust_lines s.data).getD 0 [])) = some 4 ∧
      leading_ws ((rust_lines (c7_ctx2.get_node_text c7_node2).data).getD 0 []) = 0) := by
  refine ⟨?_, ⟨?_, ?_⟩, ?_, ?_⟩ <;> decide

/-- C7 amended: whenever `get_code_block(n)` returns a string — that is,
no blank line of the padded text is shorter than the minimum indent, so
the dedent slice does not panic — the result has the same number of
lines as the node text provided the text is non-empty and the last line
of the padded text is non-blank; every line after the first has no more
leading whitespace than the corresponding line of the node text; and the
first line has at most the node's start column more leading whitespace
than the original first line. -/
theorem c7_code_block (ctx : FileScanContext) (node : Node) (s : String)
    (h : ctx.get_code_block node = some s) :
    ((ctx.get_node_text node).data ≠ [] →
      ∀ ll, (rust_lines (List.replicate node.start_column ' ' ++
        (ctx.get_node_text node).data)).getLast? = some ll →
      (rust_trim ll).isEmpty = false →
      (rust_lines s.data).length =
        (rust_lines (ctx.get_node_text node).data).length) ∧
    (∀ i, 1 ≤ i →
      leading_ws ((rust_lines s.data).getD i []) ≤
        leading_ws ((rust_lines (ctx.get_node_text node).data).getD i [])) ∧
    leading_ws ((rust_lines s.data).getD 0 []) ≤
      node.start_column +
        leading_ws ((rust_lines (ctx.get_node_text node).data).getD 0 []) := by
  have hs : s.data = List.intercalate ['\x0a']
      ((rust_lines (List.replicate node.start_column ' ' ++
        (ctx.get_node_text node).data)).map fun line =>
        line.drop (min_indent (rust_lines (List.replicate node.start_column ' ' ++
          (ctx.get_node_text node).data)))) := by
    unfold FileScanContext.get_code_block at h
    simp only at h
    split at h
    · injection h with h
      rw [← h]
    · exact absurd h (by simp)
  rw [hs]
  exact ⟨fun hT ll hlast hnb =>
      c7_line_count node.start_column (ctx.get_node_text node).data hT ll hlast hnb,
    fun i hi => c7_later_lines node.start_column (ctx.get_node_text node).data i hi,
    c7_first_line node.start_column (ctx.get_node_text node).data⟩

/-- Witness for C7 at node text `"ab\ncd"` with start column 0, where the
code block is returned and equals the text. -/
theorem c7_witness :
    (c7_ctx3.get_code_block c7_node3 = some "ab\x0acd" ∧
      (c7_ctx3.get_node_text c7_node3).data ≠ [] ∧
      (rust_lines (List.replicate c7_node3.start_column ' ' ++
        (c7_ctx3.get_node_text c7_node3).data)).getLast? = some ("cd").data ∧
      (rust_trim ("cd").data).isEmpty = false) ∧
    (rust_lines ("ab\x0acd" : String).data).length =
      (rust_lines (c7_ctx3.get_node_text c7_node3).data).length ∧
    leading_ws ((rust_lines ("ab\x0acd" : String).data).getD 1 []) ≤
      leading_ws ((rust_lines (c7_ctx3.get_node_text c7_node3).data).getD 1 []) ∧
    leading_ws ((rust_lines ("ab\x0acd" : String).data).getD 0 []) ≤
      c7_node3.start_column +
        leading_ws ((rust_lines (c7_ctx3.get_node_text c7_node3).data).getD 0 []) :=
  ⟨⟨by decide, by decide, by decide, by decide⟩,
    (c7_code_block c7_ctx3 c7_node3 "ab\x0acd" (by decide)).1 (by decide) ("cd").data
      (by decide) (by decide),
    (c7_code_block c7_ctx3 c7_node3 "ab\x0acd" (by decide)).2.1 1 (Nat.le_refl 1),
    (c7_code_block c7_ctx3 c7_node3 "ab\x0acd" (by decide)).2.2⟩

/-- Witness for C6: a skipped and an unskipped occurrence and
vulnerability against the empty store. -/
theorem c6_witness :
    (occ_h1.hash ∈ fixture_skip_ctx.config.skip_occurrences ∧
      fixture_skip_ctx.put_occurrence db0 occ_h1 = db0) ∧
    (occ_h1.hash ∉ fixture_ctx.config.skip_occurrences ∧
      (fixture_ctx.put_occurrence db0 occ_h1).get_data_element_occurrences =
        some ([] ++ [{ occ_h1 with tags := row_to_vec (join_comma occ_h1.tags) }])) ∧
    (vuln_h2.hash ∈ fixture_skip_ctx.config.skip_vulnerabilities ∧
      fixture_skip_ctx.put_vulnerability db0 vuln_h2 = db0) ∧
    (vuln_h2.hash ∉ fixture_ctx.config.skip_vulnerabilities ∧
      (fixture_ctx.put_vulnerability db0 vuln_h2).get_vulnerabilities =
        some ([] ++ [{ vuln_h2 with
          data_element_ids := row_to_vec (join_comma vuln_h2.data_element_ids),
          data_element_names := row_to_vec (join_comma vuln_h2.data_element_names),
          cwe := row_to_vec (join_comma vuln_h2.cwe),
          owasp := row_to_vec (join_comma vuln_h2.owasp) }])) :=
  ⟨⟨by decide, (c6_skip_filter fixture_skip_ctx db0 occ_h1 vuln_h2).1 (by decide)⟩,
    ⟨by decide,
      (c6_skip_filter fixture_ctx db0 occ_h1 vuln_h2).2.1 (by decide) [] rfl⟩,
    ⟨by decide, (c6_skip_filter fixture_skip_ctx db0 occ_h1 vuln_h2).2.2.1 (by decide)⟩,
    ⟨by decide,
      (c6_skip_filter fixture_ctx db0 occ_h1 vuln_h2).2.2.2 (by decide) [] rfl⟩⟩

/-- Structural induction for rose trees with a membership hypothesis on
the children. -/
theorem RTree.strong_ind {α : Type} {P : RTree α → Prop}
    (step : ∀ (l : α) (cs : List (RTree α)), (∀ c ∈ cs, P c) → P (.node l cs)) :
    ∀ t, P t := by
  intro t
  generalize hs : sizeOf t = n
  induction n using Nat.strong_induction_on generalizing t with
  | _ n ih =>
    cases t with
    | node l cs =>
      refine step l cs fun c hc => ?_
      refine ih (sizeOf c) ?_ c rfl
      subst hs
      have h1 := List.sizeOf_lt_of_mem hc
      simp only [RTree.node.sizeOf_spec]
      omega

/-- The full walk of a node is its interior followed by the final
`leave_node` call. -/
theorem walk_tree_eq_interior {σ α : Type} (v : Visitor σ α) (s : σ)
    (p : List Nat) (t : RTree α) :
    walk_tree v s p t =
      (v.leave (walk_interior v s p t).1 t,
        (walk_interior v s p t).2 ++ [WalkEvent.leave p]) := by
  cases t with
  | node l cs =>
    rw [walk_tree, walk_interior]
    by_cases hv : (v.visit s (RTree.node l cs)).2 = VisitChildren.Yes
    · simp [hv]
    · simp [hv]

/-- One more unit of fuel never changes a successful loop run. -/
theorem scan_loop_mono {σ α : Type} (v : Visitor σ α) :
    ∀ (fuel : Nat) (c : Cursor α) (va : Bool) (s : σ) (acc : List WalkEvent)
      (r : σ × List WalkEvent),
      scan_loop v fuel c va s acc = some r →
      scan_loop v (fuel + 1) c va s acc = some r := by
  intro fuel
  induction fuel with
  | zero => intro c va s acc r h; simp [scan_loop] at h
  | succ n ih =>
    intro c va s acc r h
    rw [scan_loop] at h
    rw [scan_loop]
    cases va with
    | false =>
      simp only [Bool.not_false, if_true] at h ⊢
      cases hv : v.visit s c.focus with
      | mk s1 ans =>
        rw [hv] at h
        cases ans with
        | No => simp only at h ⊢; exact ih _ _ _ _ _ h
        | Yes =>
          simp only [reduceCtorEq, if_false] at h ⊢
          cases hc : c.goto_first_child with
          | some c1 => rw [hc] at h; exact ih _ _ _ _ _ h
          | none => rw [hc] at h; exact ih _ _ _ _ _ h
    | true =>
      simp only [Bool.not_true, Bool.false_eq_true, if_false] at h ⊢
      cases hc : c.goto_next_sibling with
      | some c1 => rw [hc] at h; exact ih _ _ _ _ _ h
      | none =>
        rw [hc] at h
        cases hp : c.goto_parent with
        | some c1 => rw [hp] at h; exact ih _ _ _ _ _ h
        | none => rw [hp] at h; exact h

/-- Extra fuel never changes a successful loop run. -/
theorem scan_loop_mono_le {σ α : Type} (v : Visitor σ α) (f1 f2 : Nat)
    (hle : f1 ≤ f2) (c : Cursor α) (va : Bool) (s : σ) (acc : List WalkEvent)
    (r : σ × List WalkEvent) (h : scan_loop v f1 c va s acc = some r) :
    scan_loop v f2 c va s acc = some r := by
  induction f2 with
  | zero =>
    have : f1 = 0 := by omega
    subst this
    exact h
  | succ m ih =>
    by_cases he : f1 = m + 1
    · subst he; exact h
    · exact scan_loop_mono v m c va s acc r (ih (by omega))

/-- The path of a cursor one frame down. -/
theorem cursor_path_cons {α : Type} (l : α) (lrev rights : List (RTree α))
    (crumbs : List (Crumb α)) (t : RTree α) :
    Cursor.path ⟨⟨l, lrev, rights⟩ :: crumbs, t⟩ =
      (crumbs.map fun cr => cr.left_rev.length).reverse ++ [lrev.length] := by
  simp [Cursor.path]

/-- Unfolding `walk_children` on a cons cell. -/
theorem walk_children_cons {σ α : Type} (v : Visitor σ α) (s : σ) (p : List Nat)
    (i : Nat) (c : RTree α) (cs : List (RTree α)) :
    walk_children v s p i (c :: cs) =
      ((walk_children v (walk_tree v s (p ++ [i]) c).1 p (i + 1) cs).1,
        (walk_tree v s (p ++ [i]) c).2 ++
          (walk_children v (walk_tree v s (p ++ [i]) c).1 p (i + 1) cs).2) := rfl

/-- A singleton run of siblings is the walk of its only member. -/
theorem walk_children_singleton {σ α : Type} (v : Visitor σ α) (s : σ)
    (p : List Nat) (i : Nat) (c : RTree α) :
    walk_children v s p i [c] = walk_tree v s (p ++ [i]) c := by
  rw [walk_children_cons]
  simp [walk_children]

/-- Driving the loop over a run of right siblings: from the first
sibling, unvisited, the loop performs the reference traversal of the
whole run and returns to the parent, fully visited. -/
theorem scan_loop_siblings {σ α : Type} (v : Visitor σ α) (l : α)
    (crumbs : List (Crumb α)) :
    ∀ (rights : List (RTree α)) (c : RTree α) (lrev : List (RTree α)) (s : σ)
      (acc : List WalkEvent) (k : Nat) (r : σ × List WalkEvent),
      (∀ u ∈ c :: rights, ∀ (crumbs2 : List (Crumb α)) (s2 : σ)
        (acc2 : List WalkEvent) (k2 : Nat) (r2 : σ × List WalkEvent),
        scan_loop v k2 ⟨crumbs2, u⟩ true
          (walk_interior v s2 ((crumbs2.map fun cr => cr.left_rev.length).reverse) u).1
          (acc2 ++
            (walk_interior v s2 ((crumbs2.map fun cr => cr.left_rev.length).reverse) u).2) =
            some r2 →
        scan_loop v (walk_cost u + k2) ⟨crumbs2, u⟩ false s2 acc2 = some r2) →
      scan_loop v k ⟨crumbs, RTree.node l (lrev.reverse ++ c :: rights)⟩ true
        (walk_children v s ((crumbs.map fun cr => cr.left_rev.length).reverse)
          lrev.length (c :: rights)).1
        (acc ++ (walk_children v s ((crumbs.map fun cr => cr.left_rev.length).reverse)
          lrev.length (c :: rights)).2) = some r →
      scan_loop v (cost_list (c :: rights) + k) ⟨⟨l, lrev, rights⟩ :: crumbs, c⟩
        false s acc = some r := by
  intro rights
  induction rights with
  | nil =>
    intro c lrev s acc k r hIH hk
    rw [show cost_list [c] + k = walk_cost c + (k + 1) by simp [cost_list]; omega]
    apply hIH c (List.mem_cons_self _ _)
    rw [scan_loop]
    simp only [Bool.not_true, Bool.false_eq_true, if_false]
    rw [show Cursor.goto_next_sibling ⟨⟨l, lrev, []⟩ :: crumbs, c⟩ =
      (none : Option (Cursor α)) from rfl]
    rw [show Cursor.goto_parent (⟨⟨l, lrev, []⟩ :: crumbs, c⟩ : Cursor α) =
      some ⟨crumbs, RTree.node l (lrev.reverse ++ c :: [])⟩ from rfl]
    simp only [cursor_path_cons]
    rw [walk_children_singleton, walk_tree_eq_interior] at hk
    simpa [List.append_assoc] using hk
  | cons r0 rs ihr =>
    intro c lrev s acc k r hIH hk
    rw [show cost_list (c :: r0 :: rs) + k =
      walk_cost c + ((cost_list (r0 :: rs) + k) + 1) by simp [cost_list]; omega]
    apply hIH c (List.mem_cons_self _ _)
    rw [scan_loop]
    simp only [Bool.not_true, Bool.false_eq_true, if_false]
    rw [show Cursor.goto_next_sibling ⟨⟨l, lrev, r0 :: rs⟩ :: crumbs, c⟩ =
      some ⟨⟨l, c :: lrev, rs⟩ :: crumbs, r0⟩ from rfl]
    simp only [cursor_path_cons]
    apply ihr r0 (c :: lrev) _ _ k r (fun u hu => hIH u (List.mem_cons_of_mem _ hu))
    rw [walk_children_cons, walk_tree_eq_interior] at hk
    simpa [List.append_assoc] using hk

/-- Driving the loop over one subtree: from the focus, unvisited, the
loop performs the reference interior traversal and ends at the focus,
fully visited. -/
theorem scan_loop_subtree {σ α : Type} (v : Visitor σ α) :
    ∀ t : RTree α, ∀ (crumbs : List (Crumb α)) (s : σ) (acc : List WalkEvent)
      (k : Nat) (r : σ × List WalkEvent),
      scan_loop v k ⟨crumbs, t⟩ true
        (walk_interior v s ((crumbs.map fun cr => cr.left_rev.length).reverse) t).1
        (acc ++
          (walk_interior v s ((crumbs.map fun cr => cr.left_rev.length).reverse) t).2) =
          some r →
      scan_loop v (walk_cost t + k) ⟨crumbs, t⟩ false s acc = some r := by
  refine RTree.strong_ind ?_
  intro l cs ih crumbs s acc k r hk
  rw [show walk_cost (RTree.node l cs) + k = (cost_list cs + k) + 1 by
    simp [walk_cost]; omega]
  rw [scan_loop]
  simp only [Bool.not_false, if_true]
  rw [walk_interior] at hk
  cases hv : v.visit s (RTree.node l cs) with
  | mk s1 ans =>
    rw [hv] at hk
    cases ans with
    | No =>
      rw [if_pos (show (s1, VisitChildren.No).2 = VisitChildren.No from rfl)]
      refine scan_loop_mono_le v k (cost_list cs + k) (by omega) _ _ _ _ _ ?_
      simpa [Cursor.path] using hk
    | Yes =>
      rw [if_neg (show ¬((s1, VisitChildren.Yes).2 = VisitChildren.No) by simp)]
      cases cs with
      | nil =>
        rw [show Cursor.goto_first_child (⟨crumbs, RTree.node l []⟩ : Cursor α) =
          (none : Option (Cursor α)) from rfl]
        refine scan_loop_mono_le v k (cost_list ([] : List (RTree α)) + k)
          (by simp [cost_list]) _ _ _ _ _ ?_
        simpa [Cursor.path, walk_children, List.append_assoc] using hk
      | cons c rest =>
        rw [show Cursor.goto_first_child (⟨crumbs, RTree.node l (c :: rest)⟩ : Cursor α) =
          some ⟨⟨l, [], rest⟩ :: crumbs, c⟩ from rfl]
        apply scan_loop_siblings v l crumbs rest c [] s1 _ k r
          (fun u hu => ih u hu)
        simpa [Cursor.path, List.append_assoc] using hk

/-- `BaseScanner::scan_file` performs exactly the reference traversal:
the loop, with its fuel, returns the state and ghost trace of
`walk_tree` from the root. -/
theorem scan_file_eq_walk {σ α : Type} (v : Visitor σ α) (t : RTree α) (s0 : σ) :
    scan_file v t s0 = some (walk_tree v s0 [] t) := by
  unfold scan_file
  rw [show walk_cost t + 1 = walk_cost t + 1 from rfl]
  apply scan_loop_subtree v t [] s0 [] 1
  rw [scan_loop]
  simp only [Bool.not_true, Bool.false_eq_true, if_false]
  rw [show Cursor.goto_next_sibling (⟨[], t⟩ : Cursor α) =
    (none : Option (Cursor α)) from rfl]
  rw [show Cursor.goto_parent (⟨[], t⟩ : Cursor α) = (none : Option (Cursor α)) from rfl]
  rw [walk_tree_eq_interior]
  simp [Cursor.path]

/-- `is_under p q` holds exactly when `q` extends `p`. -/
theorem is_under_iff (p q : List Nat) : is_under p q = true ↔ ∃ r, q = p ++ r := by
  induction p generalizing q with
  | nil => simp [is_under]
  | cons a as ih =>
    cases q with
    | nil =>
      simp [is_under]
    | cons b bs =>
      rw [show is_under (a :: as) (b :: bs) = (decide (a = b) && is_under as bs) from rfl]
      rw [Bool.and_eq_true, decide_eq_true_iff, ih]
      constructor
      · rintro ⟨hab, r, hr⟩
        exact ⟨r, by rw [hab, hr]; rfl⟩
      · rintro ⟨r, hr⟩
        injection hr with h1 h2
        exact ⟨h1.symm, r, h2⟩

theorem is_under_refl (p : List Nat) : is_under p p = true :=
  (is_under_iff p p).mpr ⟨[], by simp⟩

theorem is_under_append (p r : List Nat) : is_under p (p ++ r) = true :=
  (is_under_iff p (p ++ r)).mpr ⟨r, rfl⟩

theorem is_under_trans (a b c : List Nat) (h1 : is_under a b = true)
    (h2 : is_under b c = true) : is_under a c = true := by
  rw [is_under_iff] at h1 h2 ⊢
  obtain ⟨r1, rfl⟩ := h1
  obtain ⟨r2, rfl⟩ := h2
  exact ⟨r1 ++ r2, by simp⟩

theorem is_under_length (p q : List Nat) (h : is_under p q = true) :
    p.length ≤ q.length := by
  rw [is_under_iff] at h
  obtain ⟨r, rfl⟩ := h
  simp

/-- Two lists ending in a single element. -/
theorem snoc_inj {β : Type} (l1 l2 : List β) (x y : β)
    (h : l1 ++ [x] = l2 ++ [y]) : l1 = l2 ∧ x = y := by
  have h2 : x :: l1.reverse = y :: l2.reverse := by
    simpa using congrArg List.reverse h
  injection h2 with ha hb
  exact ⟨by simpa using congrArg List.reverse hb, ha⟩

/-- A path strictly under a sibling node is under the parent. -/
theorem is_under_strict_snoc (a q : List Nat) (x : Nat)
    (h : is_under a (q ++ [x]) = true) (hne : a ≠ q ++ [x]) :
    is_under a q = true := by
  rw [is_under_iff] at h ⊢
  obtain ⟨r, hr⟩ := h
  rcases List.eq_nil_or_concat r with rfl | ⟨r2, y, rfl⟩
  · exact absurd (by simpa using hr.symm) hne
  · rw [List.concat_eq_append] at hr
    rw [show a ++ (r2 ++ [y]) = (a ++ r2) ++ [y] by simp] at hr
    obtain ⟨hq, _⟩ := snoc_inj q (a ++ r2) x y hr
    exact ⟨r2, hq⟩

/-- A path cannot lie under two distinct siblings. -/
theorem is_under_snoc_inj (p : List Nat) (i j : Nat) (q : List Nat)
    (h1 : is_under (p ++ [i]) q = true) (h2 : is_under (p ++ [j]) q = true) :
    i = j := by
  rw [is_under_iff] at h1 h2
  obtain ⟨r1, hr1⟩ := h1
  obtain ⟨r2, hr2⟩ := h2
  rw [hr1] at hr2
  have h3 := List.append_cancel_left (by simpa using hr2 :
    p ++ ([i] ++ r1) = p ++ ([j] ++ r2))
  injection h3

/-- Every event of a subtree walk lies under the subtree root. -/
theorem walk_tree_under {σ α : Type} (v : Visitor σ α) :
    ∀ t : RTree α, ∀ (s : σ) (p : List Nat) (e : WalkEvent),
      e ∈ (walk_tree v s p t).2 → is_under p e.path = true := by
  refine RTree.strong_ind ?_
  intro l cs ih s p e he
  rw [walk_tree_eq_interior] at he
  simp only at he
  rw [List.mem_append] at he
  rcases he with he | he
  · rw [walk_interior] at he
    cases hv : v.visit s (RTree.node l cs) with
    | mk s1 ans =>
      rw [hv] at he
      cases ans with
      | No =>
        rw [if_neg (show ¬(VisitChildren.No = VisitChildren.Yes) by simp)] at he
        simp only [List.mem_singleton] at he
        rw [he]
        exact is_under_refl p
      | Yes =>
        rw [if_pos rfl] at he
        simp only [List.mem_cons] at he
        rcases he with rfl | he
        · exact is_under_refl p
        · -- inside the children: find the child segment, then weaken
          clear hv
          revert he
          generalize hs1 : s1 = s2
          have : ∀ (cs2 : List (RTree α)) (s3 : σ) (i : Nat),
              (∀ c ∈ cs2, ∀ (s4 : σ) (p4 : List Nat) (e4 : WalkEvent),
                e4 ∈ (walk_tree v s4 p4 c).2 → is_under p4 e4.path = true) →
              ∀ e2 ∈ (walk_children v s3 p i cs2).2, is_under p e2.path = true := by
            intro cs2
            induction cs2 with
            | nil => intro s3 i _ e2 he2; simp [walk_children] at he2
            | cons c rest ihc =>
              intro s3 i hsub e2 he2
              rw [walk_children_cons] at he2
              simp only at he2
              rw [List.mem_append] at he2
              rcases he2 with he2 | he2
              · have h1 := hsub c (List.mem_cons_self _ _) _ _ _ he2
                exact is_under_trans p (p ++ [i]) _ (is_under_append p [i]) h1
              · exact ihc _ (i + 1) (fun u hu => hsub u (List.mem_cons_of_mem _ hu)) e2 he2
          intro he
          exact this cs s2 0 (fun c hc => ih c hc) e he
  · simp only [List.mem_singleton] at he
    rw [he]
    exact is_under_refl p

/-- Every event of a sibling-run walk lies under a child with index in
the run's range. -/
theorem walk_children_under {σ α : Type} (v : Visitor σ α) (p : List Nat) :
    ∀ (cs : List (RTree α)) (s : σ) (i : Nat),
      ∀ e ∈ (walk_children v s p i cs).2,
        ∃ j, i ≤ j ∧ j < i + cs.length ∧ is_under (p ++ [j]) e.path = true := by
  intro cs
  induction cs with
  | nil => intro s i e he; simp [walk_children] at he
  | cons c rest ihc =>
    intro s i e he
    rw [walk_children_cons] at he
    simp only at he
    rw [List.mem_append] at he
    rcases he with he | he
    · exact ⟨i, Nat.le_refl i, by simp, walk_tree_under v c _ _ _ he⟩
    · obtain ⟨j, hj1, hj2, hj3⟩ := ihc _ (i + 1) e he
      exact ⟨j, by omega, by simp only [List.length_cons]; omega, hj3⟩

/-- The normal form of a subtree walk trace: the visit of the root, the
child segments when the visitor did not prune, and the final leave of
the root. -/
theorem walk_tree_shape {σ α : Type} (v : Visitor σ α) (s : σ) (p : List Nat)
    (t : RTree α) :
    ∃ (b : Bool) (s1 : σ),
      (walk_tree v s p t).2 =
        WalkEvent.visit p b ::
          ((if b then (walk_children v s1 p 0 t.children).2 else []) ++
            [WalkEvent.leave p]) := by
  cases t with
  | node l cs =>
    cases hv : v.visit s (RTree.node l cs) with
    | mk s1 ans =>
      cases ans with
      | Yes =>
        refine ⟨true, s1, ?_⟩
        rw [walk_tree_eq_interior, walk_interior, hv]
        simp [RTree.children]
      | No =>
        refine ⟨false, s1, ?_⟩
        rw [walk_tree_eq_interior, walk_interior, hv]
        simp

/-- Splitting a two-part concatenation at a distinguished element. -/
theorem append_eq_append_cons_split {β : Type} (xs : List β) :
    ∀ (ys pre post : List β) (a : β),
      xs ++ ys = pre ++ a :: post →
      (∃ post1, xs = pre ++ a :: post1 ∧ post = post1 ++ ys) ∨
      (∃ pre2, ys = pre2 ++ a :: post ∧ pre = xs ++ pre2) := by
  induction xs with
  | nil =>
    intro ys pre post a h
    right
    exact ⟨pre, by simpa using h, by simp⟩
  | cons x xt ih =>
    intro ys pre post a h
    cases pre with
    | nil =>
      simp only [List.nil_append, List.cons_append] at h
      injection h with h1 h2
      left
      exact ⟨xt ++ [] , by simp [h1, h2.symm] , by simp [h2.symm]⟩
    | cons p0 pt =>
      simp only [List.cons_append] at h
      injection h with h1 h2
      rcases ih ys pt post a h2 with ⟨post1, ha, hb⟩ | ⟨pre2, ha, hb⟩
      · left
        exact ⟨post1, by rw [h1, ha]; rfl, hb⟩
      · right
        exact ⟨pre2, ha, by rw [h1, hb]; rfl⟩

/-- Within a run of siblings, the leave of a visited node occurs exactly
once. -/
theorem walk_children_leave_count {σ α : Type} (v : Visitor σ α) (p : List Nat) :
    ∀ (cs : List (RTree α)) (s : σ) (i : Nat) (q : List Nat) (b2 : Bool),
      (∀ c ∈ cs, ∀ (s2 : σ) (p2 q2 : List Nat) (b3 : Bool),
        WalkEvent.visit q2 b3 ∈ (walk_tree v s2 p2 c).2 →
        (walk_tree v s2 p2 c).2.count (WalkEvent.leave q2) = 1) →
      WalkEvent.visit q b2 ∈ (walk_children v s p i cs).2 →
      (walk_children v s p i cs).2.count (WalkEvent.leave q) = 1 := by
  intro cs
  induction cs with
  | nil => intro s i q b2 _ hmem; simp [walk_children] at hmem
  | cons c rest ihc =>
    intro s i q b2 hsub hmem
    rw [walk_children_cons] at hmem ⊢
    simp only at hmem ⊢
    rw [List.mem_append] at hmem
    rw [List.count_append]
    rcases hmem with hmem | hmem
    · have hc1 := hsub c (List.mem_cons_self _ _) _ _ _ _ hmem
      have hc2 : ((walk_children v (walk_tree v s (p ++ [i]) c).1 p (i + 1) rest).2).count
          (WalkEvent.leave q) = 0 := by
        rw [List.count_eq_zero]
        intro hin
        obtain ⟨j, hj1, _, hju⟩ := walk_children_under v p rest _ (i + 1) _ hin
        have hqi := walk_tree_under v c _ _ _ hmem
        have := is_under_snoc_inj p i j q hqi hju
        omega
      omega
    · have hc2 := ihc _ (i + 1) q b2
        (fun u hu => hsub u (List.mem_cons_of_mem _ hu)) hmem
      have hc1 : ((walk_tree v s (p ++ [i]) c).2).count (WalkEvent.leave q) = 0 := by
        rw [List.count_eq_zero]
        intro hin
        have hqi := walk_tree_under v c _ _ _ hin
        obtain ⟨j, hj1, _, hju⟩ := walk_children_under v p rest _ (i + 1) _ hmem
        have := is_under_snoc_inj p i j q hqi hju
        omega
      omega

/-- C5 support: the leave of every visited node occurs exactly once in a
subtree walk. -/
theorem walk_tree_leave_count {σ α : Type} (v : Visitor σ α) :
    ∀ t : RTree α, ∀ (s : σ) (p q : List Nat) (b2 : Bool),
      WalkEvent.visit q b2 ∈ (walk_tree v s p t).2 →
      (walk_tree v s p t).2.count (WalkEvent.leave q) = 1 := by
  refine RTree.strong_ind ?_
  intro l cs ih s p q b2 hmem
  obtain ⟨b, s1, hshape⟩ := walk_tree_shape v s p (RTree.node l cs)
  rw [show (RTree.node l cs).children = cs from rfl] at hshape
  rw [hshape] at hmem ⊢
  by_cases hq : q = p
  · subst hq
    have hmid : WalkEvent.leave q ∉
        (if b then (walk_children v s1 q 0 cs).2 else []) := by
      cases b with
      | false => simp
      | true =>
        simp only [if_true]
        intro hin
        obtain ⟨j, _, _, hju⟩ := walk_children_under v q cs s1 0 _ hin
        have := is_under_length (q ++ [j]) q hju
        simp at this
    rw [List.count_cons_of_ne (by simp), List.count_append,
      List.count_eq_zero.mpr hmid]
    simp
  · have hmem2 : WalkEvent.visit q b2 ∈
        (if b then (walk_children v s1 p 0 cs).2 else []) := by
      rcases List.mem_cons.mp hmem with he | he
      · injection he with h1
        exact absurd h1 hq
      · rcases List.mem_append.mp he with he2 | he2
        · exact he2
        · simp at he2
    cases b with
    | false => simp at hmem2
    | true =>
      simp only [if_true] at hmem2 ⊢
      rw [List.count_cons_of_ne (by simp), List.count_append]
      have h1 := walk_children_leave_count v p cs s1 0 q b2
        (fun c hc => ih c hc) hmem2
      have h2 : ([WalkEvent.leave p].count (WalkEvent.leave q)) = 0 := by
        rw [List.count_eq_zero]
        simp
        intro he
        exact hq he
      omega

/-- Within a run of siblings, no descendant of a pruned node is
visited. -/
theorem walk_children_prune {σ α : Type} (v : Visitor σ α) (p : List Nat) :
    ∀ (cs : List (RTree α)) (s : σ) (i : Nat) (q q2 : List Nat) (b3 : Bool),
      (∀ c ∈ cs, ∀ (s2 : σ) (p2 q3 q4 : List Nat) (b4 : Bool),
        WalkEvent.visit q3 false ∈ (walk_tree v s2 p2 c).2 →
        is_under q3 q4 = true → q3 ≠ q4 →
        WalkEvent.visit q4 b4 ∉ (walk_tree v s2 p2 c).2) →
      WalkEvent.visit q false ∈ (walk_children v s p i cs).2 →
      is_under q q2 = true → q ≠ q2 →
      WalkEvent.visit q2 b3 ∉ (walk_children v s p i cs).2 := by
  intro cs
  induction cs with
  | nil => intro s i q q2 b3 _ hmem; simp [walk_children] at hmem
  | cons c rest ihc =>
    intro s i q q2 b3 hsub hmem hund hne hmem2
    rw [walk_children_cons] at hmem hmem2
    simp only at hmem hmem2
    rw [List.mem_append] at hmem hmem2
    rcases hmem with hmem | hmem <;> rcases hmem2 with hmem2 | hmem2
    · exact hsub c (List.mem_cons_self _ _) _ _ _ _ _ hmem hund hne hmem2
    · have hq := walk_tree_under v c _ _ _ hmem
      obtain ⟨j, hj1, _, hju⟩ := walk_children_under v p rest _ (i + 1) _ hmem2
      have hq2 : is_under (p ++ [i]) q2 :=
        is_under_trans _ _ _ hq hund
      have := is_under_snoc_inj p i j q2 hq2 hju
      omega
    · obtain ⟨j, hj1, _, hju⟩ := walk_children_under v p rest _ (i + 1) _ hmem
      have hq2 := walk_tree_under v c _ _ _ hmem2
      have hq2b : is_under (p ++ [j]) q2 :=
        is_under_trans _ _ _ hju hund
      have := is_under_snoc_inj p i j q2 hq2 hq2b
      omega
    · exact ihc _ (i + 1) q q2 b3
        (fun u hu => hsub u (List.mem_cons_of_mem _ hu)) hmem hund hne hmem2

/-- C5 support: once `visit` answers `No` on a node, no descendant of
that node is visited. -/
theorem walk_tree_prune {σ α : Type} (v : Visitor σ α) :
    ∀ t : RTree α, ∀ (s : σ) (p q q2 : List Nat) (b3 : Bool),
      WalkEvent.visit q false ∈ (walk_tree v s p t).2 →
      is_under q q2 = true → q ≠ q2 →
      WalkEvent.visit q2 b3 ∉ (walk_tree v s p t).2 := by
  refine RTree.strong_ind ?_
  intro l cs ih s p q q2 b3 hmem hund hne hmem2
  obtain ⟨b, s1, hshape⟩ := walk_tree_shape v s p (RTree.node l cs)
  rw [show (RTree.node l cs).children = cs from rfl] at hshape
  rw [hshape] at hmem hmem2
  by_cases hq : q = p
  · subst hq
    have hb : b = false := by
      rcases List.mem_cons.mp hmem with he | he
      · injection he with _ h2
        exact h2.symm
      · rcases List.mem_append.mp he with he2 | he2
        · exfalso
          cases b with
          | false => simp at he2
          | true =>
            simp only [if_true] at he2
            obtain ⟨j, _, _, hju⟩ := walk_children_under v q cs s1 0 _ he2
            have := is_under_length (q ++ [j]) q hju
            simp at this
        · simp at he2
    subst hb
    rw [if_neg (show ¬(false = true) by simp)] at hmem2
    simp only [List.nil_append] at hmem2
    rcases List.mem_cons.mp hmem2 with he | he
    · injection he with h1
      exact hne h1.symm
    · simp at he
  · have hmemc : WalkEvent.visit q false ∈
        (if b then (walk_children v s1 p 0 cs).2 else []) := by
      rcases List.mem_cons.mp hmem with he | he
      · injection he with h1
        exact absurd h1 hq
      · rcases List.mem_append.mp he with he2 | he2
        · exact he2
        · simp at he2
    cases b with
    | false => simp at hmemc
    | true =>
      simp only [if_true] at hmemc hmem2
      obtain ⟨j, _, _, hju⟩ := walk_children_under v p cs s1 0 _ hmemc
      rcases List.mem_cons.mp hmem2 with he | he
      · injection he with h1
        have h2 : is_under q p = true := by rw [← h1]; exact hund
        have h3 := is_under_length q p h2
        have h4 := is_under_length (p ++ [j]) q hju
        simp at h4
        omega
      · rcases List.mem_append.mp he with he2 | he2
        · exact walk_children_prune v p cs s1 0 q q2 b3
            (fun c hc => ih c hc) hmemc hund hne he2
        · simp at he2

/-- Within a run of siblings, nothing after the leave of a node is a
strict descendant of that node. -/
theorem walk_children_leave_last {σ α : Type} (v : Visitor σ α) (p : List Nat) :
    ∀ (cs : List (RTree α)) (s : σ) (i : Nat) (q : List Nat)
      (pre post : List WalkEvent),
      (∀ c ∈ cs, ∀ (s2 : σ) (p2 q2 : List Nat) (pre2 post2 : List WalkEvent),
        (walk_tree v s2 p2 c).2 = pre2 ++ WalkEvent.leave q2 :: post2 →
        ∀ e ∈ post2, ¬(is_under q2 e.path = true ∧ q2 ≠ e.path)) →
      (walk_children v s p i cs).2 = pre ++ WalkEvent.leave q :: post →
      ∀ e ∈ post, ¬(is_under q e.path = true ∧ q ≠ e.path) := by
  intro cs
  induction cs with
  | nil =>
    intro s i q pre post _ h
    exfalso
    have : (walk_children v s p i ([] : List (RTree α))).2 = [] := rfl
    rw [this] at h
    exact List.ne_nil_of_mem (h ▸ List.mem_append_right pre (List.mem_cons_self _ _)) rfl
  | cons c rest ihc =>
    intro s i q pre post hsub hsplit e he
    rw [walk_children_cons] at hsplit
    simp only at hsplit
    rcases append_eq_append_cons_split _ _ _ _ _ hsplit with
      ⟨post1, he1, hpost⟩ | ⟨pre2, he2, hpre⟩
    · -- the leave is inside the first child's segment
      have hqmem : WalkEvent.leave q ∈ (walk_tree v s (p ++ [i]) c).2 := by
        rw [he1]
        exact List.mem_append_right pre (List.mem_cons_self _ _)
      have hqu : is_under (p ++ [i]) q = true :=
        walk_tree_under v c _ _ _ hqmem
      subst hpost
      rcases List.mem_append.mp he with he3 | he3
      · exact hsub c (List.mem_cons_self _ _) _ _ _ _ _ he1 e he3
      · rintro ⟨hu1, _⟩
        obtain ⟨j, hj1, _, hju⟩ := walk_children_under v p rest _ (i + 1) _ he3
        have : is_under (p ++ [i]) e.path = true := is_under_trans _ _ _ hqu hu1
        have := is_under_snoc_inj p i j e.path this hju
        omega
    · subst hpre
      exact ihc _ (i + 1) q pre2 post
        (fun u hu => hsub u (List.mem_cons_of_mem _ hu)) he2 e he

/-- C5 support: the leave of a node comes after every event of its
subtree — nothing after it is a strict descendant. -/
theorem walk_tree_leave_last {σ α : Type} (v : Visitor σ α) :
    ∀ t : RTree α, ∀ (s : σ) (p q : List Nat) (pre post : List WalkEvent),
      (walk_tree v s p t).2 = pre ++ WalkEvent.leave q :: post →
      ∀ e ∈ post, ¬(is_under q e.path = true ∧ q ≠ e.path) := by
  refine RTree.strong_ind ?_
  intro l cs ih s p q pre post hsplit e he
  obtain ⟨b, s1, hshape⟩ := walk_tree_shape v s p (RTree.node l cs)
  rw [show (RTree.node l cs).children = cs from rfl] at hshape
  rw [hshape] at hsplit
  cases pre with
  | nil =>
    simp only [List.nil_append] at hsplit
    injection hsplit with h1
    cases h1
  | cons pe pre2 =>
    simp only [List.cons_append] at hsplit
    injection hsplit with h1 h2
    rcases append_eq_append_cons_split _ _ _ _ _ h2 with
      ⟨post1, hmid, hpost⟩ | ⟨pre3, hsingle, _⟩
    · -- the leave is inside the child segments
      cases b with
      | false =>
        exfalso
        rw [if_neg (show ¬(false = true) by simp)] at hmid
        exact List.ne_nil_of_mem
          (hmid ▸ List.mem_append_right pre2 (List.mem_cons_self _ _)) rfl
      | true =>
        rw [if_pos rfl] at hmid
        have hqmem : WalkEvent.leave q ∈ (walk_children v s1 p 0 cs).2 := by
          rw [hmid]
          exact List.mem_append_right pre2 (List.mem_cons_self _ _)
        obtain ⟨j, _, _, hju⟩ := walk_children_under v p cs s1 0 _ hqmem
        subst hpost
        rcases List.mem_append.mp he with he3 | he3
        · exact walk_children_leave_last v p cs s1 0 q pre2 post1
            (fun c hc => ih c hc) hmid e he3
        · simp only [List.mem_singleton] at he3
          subst he3
          rintro ⟨hu1, _⟩
          have h3 := is_under_length q (WalkEvent.leave p).path hu1
          have h4 := is_under_length (p ++ [j]) q hju
          simp [WalkEvent.path] at h3 h4
          omega
    · exfalso
      cases pre3 with
      | nil =>
        simp only [List.nil_append] at hsingle
        injection hsingle with h3 h4
        -- post = [] yet e ∈ post
        rw [← h4] at he
        cases he
      | cons x xt =>
        simp only [List.cons_append] at hsingle
        injection hsingle with _ h4
        exact List.ne_nil_of_mem
          (h4.symm ▸ List.mem_append_right xt (List.mem_cons_self _ _)) rfl

/-- Within a run of siblings, a lower-indexed sibling visit precedes a
higher-indexed one: if the trace splits at the higher visit, the lower
visit lies in the prefix. -/
theorem walk_children_sibling {σ α : Type} (v : Visitor σ α) (p : List Nat) :
    ∀ (cs : List (RTree α)) (s : σ) (i0 : Nat) (q : List Nat) (i j : Nat)
      (bi bj : Bool) (pre post : List WalkEvent),
      (∀ c ∈ cs, ∀ (s2 : σ) (p2 q2 : List Nat) (i2 j2 : Nat) (bi2 bj2 : Bool)
        (pre2 post2 : List WalkEvent),
        i2 < j2 →
        (walk_tree v s2 p2 c).2 =
          pre2 ++ WalkEvent.visit (q2 ++ [j2]) bj2 :: post2 →
        WalkEvent.visit (q2 ++ [i2]) bi2 ∈ (walk_tree v s2 p2 c).2 →
        WalkEvent.visit (q2 ++ [i2]) bi2 ∈ pre2) →
      i < j →
      (walk_children v s p i0 cs).2 =
        pre ++ WalkEvent.visit (q ++ [j]) bj :: post →
      WalkEvent.visit (q ++ [i]) bi ∈ (walk_children v s p i0 cs).2 →
      WalkEvent.visit (q ++ [i]) bi ∈ pre := by
  intro cs
  induction cs with
  | nil =>
    intro s i0 q i j bi bj pre post _ _ _ hmem
    simp [walk_children] at hmem
  | cons c rest ihc =>
    intro s i0 q i j bi bj pre post hsub hij hsplit hmem
    rw [walk_children_cons] at hsplit hmem
    simp only at hsplit hmem
    rcases append_eq_append_cons_split _ _ _ _ _ hsplit with
      ⟨post1, he1, hpost⟩ | ⟨pre2, he2, hpre⟩
    · -- the j visit is inside the first child's segment
      rcases List.mem_append.mp hmem with hm1 | hm2
      · exact hsub c (List.mem_cons_self _ _) _ _ _ i j bi bj pre post1
          hij he1 hm1
      · -- the i visit in a later sibling segment is impossible
        exfalso
        have hvj : WalkEvent.visit (q ++ [j]) bj ∈
            (walk_tree v s (p ++ [i0]) c).2 := by
          rw [he1]
          exact List.mem_append_right pre (List.mem_cons_self _ _)
        have hju : is_under (p ++ [i0]) (q ++ [j]) = true := by
          have h0 := walk_tree_under v c _ _ _ hvj
          simpa [WalkEvent.path] using h0
        obtain ⟨j2, hj2a, _, hj2u⟩ :=
          walk_children_under v p rest _ (i0 + 1) _ hm2
        simp only [WalkEvent.path] at hj2u
        by_cases hcase : p ++ [i0] = q ++ [j]
        · obtain ⟨hpq, hij0⟩ := snoc_inj p q i0 j hcase
          subst hpq
          have h3 := is_under_snoc_inj p j2 i (p ++ [i]) hj2u (is_under_refl _)
          omega
        · have hqu : is_under (p ++ [i0]) q = true :=
            is_under_strict_snoc _ _ _ hju hcase
          have h2 : is_under (p ++ [i0]) (q ++ [i]) = true :=
            is_under_trans _ _ _ hqu (is_under_append q [i])
          have h3 := is_under_snoc_inj p i0 j2 (q ++ [i]) h2 hj2u
          omega
    · subst hpre
      rcases List.mem_append.mp hmem with hm1 | hm2
      · exact List.mem_append_left _ hm1
      · exact List.mem_append_right _
          (ihc _ (i0 + 1) q i j bi bj pre2 post
            (fun u hu => hsub u (List.mem_cons_of_mem _ hu)) hij he2 hm2)

/-- C5 support: siblings are visited in source order — the visit of a
lower-indexed sibling always precedes the visit of a higher-indexed one. -/
theorem walk_tree_sibling_order {σ α : Type} (v : Visitor σ α) :
    ∀ t : RTree α, ∀ (s : σ) (p q : List Nat) (i j : Nat) (bi bj : Bool)
      (pre post : List WalkEvent),
      i < j →
      (walk_tree v s p t).2 = pre ++ WalkEvent.visit (q ++ [j]) bj :: post →
      WalkEvent.visit (q ++ [i]) bi ∈ (walk_tree v s p t).2 →
      WalkEvent.visit (q ++ [i]) bi ∈ pre := by
  refine RTree.strong_ind ?_
  intro l cs ih s p q i j bi bj pre post hij hsplit hmem
  have hund : is_under p (q ++ [i]) = true := by
    have h0 := walk_tree_under v (RTree.node l cs) s p _ hmem
    simpa [WalkEvent.path] using h0
  obtain ⟨b, s1, hshape⟩ := walk_tree_shape v s p (RTree.node l cs)
  rw [show (RTree.node l cs).children = cs from rfl] at hshape
  rw [hshape] at hsplit hmem
  cases pre with
  | nil =>
    exfalso
    simp only [List.nil_append] at hsplit
    injection hsplit with h1 _
    injection h1 with hp _
    subst hp
    have h3 := is_under_snoc_inj q j i (q ++ [i]) hund (is_under_refl _)
    omega
  | cons pe pre2 =>
    simp only [List.cons_append] at hsplit
    injection hsplit with h1 h2
    rcases append_eq_append_cons_split _ _ _ _ _ h2 with
      ⟨post1, hmid, _⟩ | ⟨pre3, hsingle, _⟩
    · cases b with
      | false =>
        exfalso
        rw [if_neg (show ¬(false = true) by simp)] at hmid
        exact List.ne_nil_of_mem
          (hmid ▸ List.mem_append_right pre2 (List.mem_cons_self _ _)) rfl
      | true =>
        rw [if_pos rfl] at hmid hmem
        rcases List.mem_cons.mp hmem with heq | hm2
        · rw [heq, h1]
          exact List.mem_cons_self _ _
        · rcases List.mem_append.mp hm2 with hm3 | hm3
          · exact List.mem_cons_of_mem pe
              (walk_children_sibling v p cs s1 0 q i j bi bj pre2 post1
                (fun c hc => ih c hc) hij hmid hm3)
          · simp at hm3
    · exfalso
      cases pre3 with
      | nil =>
        simp only [List.nil_append] at hsingle
        injection hsingle with h3 _
        cases h3
      | cons x xt =>
        simp only [List.cons_append] at hsingle
        injection hsingle with _ h4
        exact List.ne_nil_of_mem
          (h4.symm ▸ List.mem_append_right xt (List.mem_cons_self _ _)) rfl

/-- C5: in the tree-walker loop, whenever `scan_file` terminates with a
trace, (1) a node whose visit returned `No` has no strict descendant
visited, (2) every visited node — pruned ones included — receives exactly
one leave, (3) the leave of a node comes after every event of its strict
descendants, and (4) siblings are visited in source order: a
lower-indexed sibling's visit always precedes a higher-indexed one's. -/
theorem c5_tree_walker {σ α : Type} (v : Visitor σ α) (t : RTree α) (s0 : σ)
    (s1 : σ) (tr : List WalkEvent)
    (h : scan_file v t s0 = some (s1, tr)) :
    (∀ q : List Nat, WalkEvent.visit q false ∈ tr →
      ∀ (q2 : List Nat) (b2 : Bool),
        is_under q q2 = true → q ≠ q2 → WalkEvent.visit q2 b2 ∉ tr) ∧
    (∀ (q : List Nat) (b : Bool), WalkEvent.visit q b ∈ tr →
      tr.count (WalkEvent.leave q) = 1) ∧
    (∀ (q : List Nat) (pre post : List WalkEvent),
      tr = pre ++ WalkEvent.leave q :: post →
      ∀ e ∈ post, ¬(is_under q e.path = true ∧ q ≠ e.path)) ∧
    (∀ (q : List Nat) (i j : Nat) (bi bj : Bool) (pre post : List WalkEvent),
      i < j →
      tr = pre ++ WalkEvent.visit (q ++ [j]) bj :: post →
      WalkEvent.visit (q ++ [i]) bi ∈ tr →
      WalkEvent.visit (q ++ [i]) bi ∈ pre) := by
  rw [scan_file_eq_walk] at h
  injection h with h1
  have htr : tr = (walk_tree v s0 [] t).2 := by rw [h1]
  subst htr
  refine ⟨?_, ?_, ?_, ?_⟩
  · intro q hq q2 b2 hund hne
    exact walk_tree_prune v t s0 [] q q2 b2 hq hund hne
  · intro q b hq
    exact walk_tree_leave_count v t s0 [] q b hq
  · intro q pre post hsplit e he
    exact walk_tree_leave_last v t s0 [] q pre post hsplit e he
  · intro q i j bi bj pre post hij hsplit hm
    exact walk_tree_sibling_order v t s0 [] q i j bi bj pre post hij hsplit hm

/-- The walker guarantees hold on a concrete pruned traversal. -/
theorem c5_witness :
    WalkEvent.visit [0] false ∈ walk_fixture_result.2 ∧
    (WalkEvent.visit [0, 0] true ∉ walk_fixture_result.2 ∧
      walk_fixture_result.2.count (WalkEvent.leave [0]) = 1) := by
  have h := c5_tree_walker walk_fixture_visitor walk_fixture_tree 0
    walk_fixture_result.1 walk_fixture_result.2 (by decide)
  refine ⟨by decide, ?_, ?_⟩
  · exact h.1 [0] (by decide) [0, 0] true (by decide) (by decide)
  · exact h.2.1 [0] false (by decide)

end HoundDog
